import Mathlib

/-!
Verification development for the pairs-trading backtest engine
(`backtester.py`, `cointegration_test.py`, `optimize_params.py`).

Shallow embedding conventions:
* pandas/numpy float series are modelled as `List ℚ` (exact arithmetic);
  float NaN ("no value") is modelled by `Option`, with every comparison
  against `none` evaluating to `False`, exactly as IEEE comparisons with
  NaN are false;
* the square root appearing in rolling standard deviations is modelled
  with `Real.sqrt` (it has no exact rational counterpart); all list-level
  bookkeeping is done on the rational variances and transported along
  `Real.sqrt` by dedicated lemmas;
* fallible computations return `Option` (`none` = "no result");
* external library calls (statsmodels `adfuller`, scipy `pearsonr`) are
  abstract function parameters: they are collaborators outside the
  repository.
-/

/-! ## Definitions

### Signal state machine (backtester.py, `PairsBacktester.generate_signals`) -/

/-- The three z-score thresholds of `PairsBacktester.__init__`. -/
structure SignalParams (α : Type) where
  z_entry : α
  z_exit : α
  z_stop : α

/-- Comparison `z < q` where `z` may be NaN (`none`); false on NaN,
as in Python float comparisons. -/
def oLt {α : Type} [LinearOrderedField α] (z : Option α) (q : α) : Prop :=
  match z with
  | none => False
  | some v => v < q

instance {α : Type} [LinearOrderedField α] (z : Option α) (q : α) : Decidable (oLt z q) := by
  cases z with
  | none => exact isFalse (by simp [oLt])
  | some v => exact decidable_of_iff (v < q) (by simp [oLt])

/-- Comparison `z > q`; false on NaN. -/
def oGt {α : Type} [LinearOrderedField α] (z : Option α) (q : α) : Prop :=
  match z with
  | none => False
  | some v => q < v

instance {α : Type} [LinearOrderedField α] (z : Option α) (q : α) : Decidable (oGt z q) := by
  cases z with
  | none => exact isFalse (by simp [oGt])
  | some v => exact decidable_of_iff (q < v) (by simp [oGt])

/-- Comparison `z >= q`; false on NaN. -/
def oGe {α : Type} [LinearOrderedField α] (z : Option α) (q : α) : Prop :=
  match z with
  | none => False
  | some v => q ≤ v

instance {α : Type} [LinearOrderedField α] (z : Option α) (q : α) : Decidable (oGe z q) := by
  cases z with
  | none => exact isFalse (by simp [oGe])
  | some v => exact decidable_of_iff (q ≤ v) (by simp [oGe])

/-- Comparison `z <= q`; false on NaN. -/
def oLe {α : Type} [LinearOrderedField α] (z : Option α) (q : α) : Prop :=
  match z with
  | none => False
  | some v => v ≤ q

instance {α : Type} [LinearOrderedField α] (z : Option α) (q : α) : Decidable (oLe z q) := by
  cases z with
  | none => exact isFalse (by simp [oLe])
  | some v => exact decidable_of_iff (v ≤ q) (by simp [oLe])

/-- Comparison `abs(z) > q`; false on NaN. -/
def oAbsGt {α : Type} [LinearOrderedField α] (z : Option α) (q : α) : Prop :=
  match z with
  | none => False
  | some v => q < |v|

instance {α : Type} [LinearOrderedField α] (z : Option α) (q : α) : Decidable (oAbsGt z q) := by
  cases z with
  | none => exact isFalse (by simp [oAbsGt])
  | some v => exact decidable_of_iff (q < |v|) (by simp [oAbsGt])

/-- One iteration of the `for i in range(1, len(signals))` loop of
`generate_signals` (backtester.py lines 38-70).  `s` is the state carried
between bars; it coincides with the emitted `position` value of the
previous bar (0 when flat, otherwise `position_direction`).  The
`entry_price` column is write-only state (it is never read by any
transition nor by any downstream computation) and is omitted. -/
def signalStep {α : Type} [LinearOrderedField α] (P : SignalParams α)
    (prevZ curZ : Option α) (s : ℤ) : ℤ :=
  if s = 0 then
    if oLt curZ (-P.z_entry) ∧ oGe prevZ (-P.z_entry) then 1
    else if oGt curZ P.z_entry ∧ oLe prevZ P.z_entry then -1
    else 0
  else
    if (s = 1 ∧ oGt curZ (-P.z_exit))
        ∨ (s = -1 ∧ oLt curZ P.z_exit)
        ∨ oAbsGt curZ P.z_stop then 0
    else s

/-- The loop of `generate_signals`, started after the first bar:
`prevZ` is the previous bar's z-score and `s` the carried state. -/
def signalLoop {α : Type} [LinearOrderedField α] (P : SignalParams α) :
    Option α → ℤ → List (Option α) → List ℤ
  | _, _, [] => []
  | prevZ, s, z :: rest =>
    let s' := signalStep P prevZ z s
    s' :: signalLoop P z s' rest

/-- The `position` column produced by `generate_signals` as a function of
the z-score column (spec section 4.3 contract `signals(zscore_series, params)`).
Bar 0 always carries the initial flat value 0. -/
def signalPositions {α : Type} [LinearOrderedField α] (P : SignalParams α) :
    List (Option α) → List ℤ
  | [] => []
  | z0 :: rest => 0 :: signalLoop P z0 0 rest

/-! ### Returns and cost accounting (backtester.py, `PairsBacktester.calculate_returns`) -/

/-- `Series.pct_change()`: bar-over-bar simple percentage return, NaN on
the first bar. -/
def pctChange (p : List ℚ) : List (Option ℚ) :=
  match p with
  | [] => []
  | _ :: _ => none :: List.zipWith (fun prev cur => some (cur / prev - 1)) p.dropLast p.tail

/-- `Series.shift(1)` applied to the integer position column: NaN on the
first bar, previous value afterwards. -/
def shiftPos (pos : List ℤ) : List (Option ℤ) :=
  match pos with
  | [] => []
  | _ :: _ => none :: pos.dropLast.map some

/-- `Series.diff()` applied to the position column: NaN on the first bar,
`pos[t] - pos[t-1]` afterwards. -/
def diffPos (pos : List ℤ) : List (Option ℤ) :=
  match pos with
  | [] => []
  | _ :: _ => none :: List.zipWith (fun prev cur => some (cur - prev)) pos.dropLast pos.tail

/-- Three-list `zipWith`, used for the elementwise arithmetic of aligned
pandas Series. -/
def zip3 {α β γ δ : Type} (f : α → β → γ → δ) : List α → List β → List γ → List δ
  | a :: as, b :: bs, c :: cs => f a b c :: zip3 f as bs cs
  | _, _, _ => []

/-- `PairsBacktester.calculate_returns` (backtester.py lines 74-92):
net returns = previous position times spread return, minus
`|Δposition| * transaction_cost`, with NaN rows dropped (`dropna`).
NaN-propagating arithmetic is modelled by `Option.bind`/`Option.map`. -/
def calculate_returns (p1 p2 : List ℚ) (pos : List ℤ) (hedge cost : ℚ) : List ℚ :=
  let ret1 := pctChange p1
  let ret2 := pctChange p2
  let spread_returns := zip3 (fun ps r1 r2 =>
      ps.bind fun p => r1.bind fun a => r2.map fun b => (p : ℚ) * (a - hedge * b))
    (shiftPos pos) ret1 ret2
  let transaction_costs := (diffPos pos).map (Option.map (fun d => |((d : ℤ) : ℚ)| * cost))
  (List.zipWith (fun a b => a.bind fun x => b.map fun y => x - y)
    spread_returns transaction_costs).filterMap id

/-- `total_trades = (returns != 0).sum()` of `calculate_metrics`
(backtester.py line 109): the count of non-zero bars of the net return
series, reported as `num_trades`. -/
def num_trades (nets : List ℚ) : ℕ := nets.countP (fun r => decide (r ≠ 0))

/-- The guard of `backtest_pair` (backtester.py lines 126-127): an empty
net return series yields no result (`None`); otherwise the result record
is built from the returns. -/
def backtest_result (nets : List ℚ) : Option (List ℚ) :=
  if nets = [] then none else some nets

/-! ### Shared statistics (numpy `mean`, `var`, `cov`; pandas `std`) -/

/-- Arithmetic mean of a list (numpy `mean`; 0/0 = 0 on the empty list). -/
def listMean (l : List ℚ) : ℚ := l.sum / l.length

/-- Sum of squared deviations from the mean. -/
def centeredSqSum (l : List ℚ) : ℚ := (l.map (fun x => (x - listMean l) ^ 2)).sum

/-- Population variance, numpy `var` (ddof = 0). -/
def popVar (l : List ℚ) : ℚ := centeredSqSum l / l.length

/-- Sample variance (ddof = 1), the square of pandas/`Series.std`. -/
def sampleVar (l : List ℚ) : ℚ := centeredSqSum l / ((l.length : ℚ) - 1)

/-- Sum of products of centered values of two equal-length lists. -/
def centeredProdSum (xs ys : List ℚ) : ℚ :=
  ((xs.zip ys).map (fun p => (p.1 - listMean xs) * (p.2 - listMean ys))).sum

/-- Sample covariance, numpy `cov(x, y)[0, 1]` (default ddof = 1). -/
def sampleCov (xs ys : List ℚ) : ℚ := centeredProdSum xs ys / ((xs.length : ℚ) - 1)

/-- Population covariance (ddof = 0); `popCov xs ys / popVar xs` is the
ordinary-least-squares slope of regressing `ys` on `xs` with intercept. -/
def popCov (xs ys : List ℚ) : ℚ := centeredProdSum xs ys / (xs.length : ℚ)

/-! ### Half-life (cointegration_test.py, `calculate_half_life`) -/

/-- The value returned by `calculate_half_life`: either `+infinity` or the
finite value `-ln(2)/beta` for a recorded rational regression
coefficient `beta` (kept symbolic so the embedding stays computable). -/
inductive HalfLife : Type where
  | inf : HalfLife
  | negLogTwoDiv (beta : ℚ) : HalfLife
deriving DecidableEq

/-- The real value denoted by a `HalfLife` (`⊤` for `+infinity`,
`-ln 2 / beta` otherwise). -/
noncomputable def HalfLife.toEReal : HalfLife → EReal
  | inf => ⊤
  | negLogTwoDiv b => ((-Real.log 2 / (b : ℝ) : ℝ) : EReal)

/-- `spread_ret = (spread - spread.shift(1)).dropna()` of
`calculate_half_life`: the first differences, the value at original
index i+1 being `spread[i+1] - spread[i]`. -/
def spread_ret (spread : List ℚ) : List ℚ :=
  List.zipWith (fun prev cur => cur - prev) spread.dropLast spread.tail

/-- `spread_lag = spread.shift(1).dropna()` of `calculate_half_life`:
the lagged levels, positionally aligned with `spread_ret`. -/
def spread_lag (spread : List ℚ) : List ℚ := spread.dropLast

/-- The regression coefficient of `calculate_half_life`:
`np.cov(spread_ret, spread_lag)[0, 1] / np.var(spread_lag)`, i.e. the
sample covariance (ddof = 1) over the population variance (ddof = 0). -/
def half_life_beta (spread : List ℚ) : ℚ :=
  sampleCov (spread_ret spread) (spread_lag spread) / popVar (spread_lag spread)

/-- The ordinary-least-squares slope of regressing `spread_ret` on
`spread_lag` with an intercept: population covariance over population
variance.  This is the coefficient the claim describes. -/
def half_life_beta_ols (spread : List ℚ) : ℚ :=
  popCov (spread_ret spread) (spread_lag spread) / popVar (spread_lag spread)

/-- `calculate_half_life` (cointegration_test.py lines 30-42): fewer than
2 paired (difference, lagged level) observations report `inf`; otherwise
`-ln(2)/beta` when `beta < 0` and `inf` when not, with
`beta = half_life_beta`. -/
def calculate_half_life (spread : List ℚ) : HalfLife :=
  if (spread_ret spread).length < 2 then HalfLife.inf
  else if half_life_beta spread < 0 then HalfLife.negLogTwoDiv (half_life_beta spread)
  else HalfLife.inf

/-- The half-life computation as the claim words it: the coefficient is
the ordinary-least-squares slope `half_life_beta_ols`.  This definition
follows the claim's words and is compared against `calculate_half_life`,
which embeds the source. -/
def calculate_half_life_ols (spread : List ℚ) : HalfLife :=
  if (spread_ret spread).length < 2 then HalfLife.inf
  else if half_life_beta_ols spread < 0 then HalfLife.negLogTwoDiv (half_life_beta_ols spread)
  else HalfLife.inf

/-! ### Cointegration testing (cointegration_test.py, `engle_granger_test`, `test_pair`) -/

/-- The record returned by `engle_granger_test`.  `spread_var` carries the
square of the reported `spread_std` (the square is kept so the record
stays rational/computable). -/
structure EGResult : Type where
  hedge : ℚ
  pvalue : ℚ
  adf_statistic : ℚ
  spread_var : ℚ
deriving DecidableEq

/-- Pandas `Series.align(..., join='inner')` on timestamp-keyed series:
keep the timestamps present in both series, pairing their values. -/
def alignSeries (s1 s2 : List (ℕ × ℚ)) : List (ℚ × ℚ) :=
  s1.filterMap (fun tv => (s2.lookup tv.1).map (fun w => (tv.2, w)))

/-- `engle_granger_test` (cointegration_test.py lines 7-28).  `adf` is the
external statsmodels `adfuller` collaborator, abstracted as a function
returning (test statistic, p-value).  Fewer than 30 aligned observations
produce no result.  The least-squares slope of `lstsq` with an intercept
column equals the covariance/variance quotient. -/
def engle_granger_test (adf : List ℚ → ℚ × ℚ) (s1 s2 : List (ℕ × ℚ)) : Option EGResult :=
  let al := alignSeries s1 s2
  if al.length < 30 then none
  else
    let ys := al.map Prod.fst
    let xs := al.map Prod.snd
    let beta := popCov xs ys / popVar xs
    let spread := al.map (fun p => p.1 - beta * p.2)
    let adfr := adf spread
    some ⟨beta, adfr.2, adfr.1, sampleVar spread⟩

/-- The record returned by `test_pair`. -/
structure TPResult : Type where
  name : String
  correlation : ℚ
  coint_pvalue : ℚ
  hedge : ℚ
  half_life : HalfLife
  spread_var : ℚ
  is_cointegrated : Bool
  data_points : ℕ

/-- `test_pair` (cointegration_test.py lines 44-71).  `pearson` is the
external scipy `pearsonr` collaborator, abstracted as a function.
A `none` from `engle_granger_test` propagates as `none`. -/
def test_pair (adf : List ℚ → ℚ × ℚ) (pearson : List ℚ → List ℚ → ℚ)
    (name : String) (s1 s2 : List (ℕ × ℚ)) : Option TPResult :=
  let corr := pearson (s1.map Prod.snd) (s2.map Prod.snd)
  match engle_granger_test adf s1 s2 with
  | none => none
  | some eg =>
    let spread := List.zipWith (fun a b => a - eg.hedge * b)
      (s1.map Prod.snd) (s2.map Prod.snd)
    some ⟨name, corr, eg.pvalue, eg.hedge, calculate_half_life spread, eg.spread_var,
          decide (eg.pvalue < 1/20), s1.length⟩

/-- The collection loop of `main` in cointegration_test.py: each pair is
tested and `None` results are skipped; a pair with no result never
affects the processing of the remaining pairs. -/
def process_pairs (adf : List ℚ → ℚ × ℚ) (pearson : List ℚ → List ℚ → ℚ)
    (pairs : List (String × (List (ℕ × ℚ) × List (ℕ × ℚ)))) : List TPResult :=
  pairs.filterMap (fun x => test_pair adf pearson x.1 x.2.1 x.2.2)

/-! ### Z-score transformer (backtester.py, `PairsBacktester.calculate_zscore`) -/

/-- The trailing window of at most `window` observations ending at index
`i` (pandas `rolling(window, min_periods=1)` windows). -/
def windowAt (s : List ℚ) (window i : ℕ) : List ℚ := (s.take (i + 1)).drop (i + 1 - window)

/-- Rolling mean with `min_periods=1` (defined from the first bar). -/
def rolling_mean (s : List ℚ) (window : ℕ) : List ℚ :=
  (List.range s.length).map (fun i => listMean (windowAt s window i))

/-- Rolling sample variance: the square of the pandas rolling standard
deviation (ddof = 1), `none` when the window holds fewer than 2
observations (pandas reports NaN there). -/
def rolling_var (s : List ℚ) (window : ℕ) : List (Option ℚ) :=
  (List.range s.length).map (fun i =>
    if (windowAt s window i).length < 2 then none else some (sampleVar (windowAt s window i)))

/-- The real square root of a rational, used to pass from rolling
variances to rolling standard deviations. -/
noncomputable def sqrtQ (v : ℚ) : ℝ := Real.sqrt ((v : ℚ) : ℝ)

/-- Rolling standard deviation: the square root of `rolling_var`. -/
noncomputable def rolling_std (s : List ℚ) (window : ℕ) : List (Option ℝ) :=
  (rolling_var s window).map (Option.map sqrtQ)

/-- `Series.replace(0, np.nan)`: exact zeros become NaN (`none`). -/
def replaceZero {α : Type} [Zero α] [DecidableEq α] (l : List (Option α)) : List (Option α) :=
  l.map (fun o => o.bind (fun v => if v = 0 then none else some v))

/-- First defined value of a list of optional values. -/
def firstSome {α : Type} (l : List (Option α)) : Option α := l.findSome? id

/-- Last defined value of a list of optional values. -/
def lastSome {α : Type} (l : List (Option α)) : Option α :=
  l.foldl (fun acc o => match o with | some v => some v | none => acc) none

/-- Worker for `ffill`: `cur` is the last defined value seen so far. -/
def ffillGo {α : Type} : Option α → List (Option α) → List (Option α)
  | _, [] => []
  | cur, o :: t =>
    match o with
    | some v => some v :: ffillGo (some v) t
    | none => cur :: ffillGo cur t

/-- `Series.ffill()`: each NaN is filled with the most recent preceding
defined value. -/
def ffill {α : Type} (l : List (Option α)) : List (Option α) := ffillGo none l

/-- `Series.bfill()`: each NaN is filled with the next following defined
value. -/
def bfill {α : Type} : List (Option α) → List (Option α)
  | [] => []
  | o :: t => (match o with | some v => some v | none => firstSome t) :: bfill t

/-- Left-biased choice on optional values, used to state which estimate a
filled position receives (the left candidate wins when defined). -/
def orElseO {α : Type} (a b : Option α) : Option α :=
  match a with
  | some v => some v
  | none => b

/-- The substituted standard deviation of `calculate_zscore`
(backtester.py line 21): `std.replace(0, np.nan).ffill().bfill()`. -/
noncomputable def filled_std (s : List ℚ) (window : ℕ) : List (Option ℝ) :=
  bfill (ffill (replaceZero (rolling_std s window)))

/-- The substitution rule as the claim words it: a degenerate position
takes the nearest non-zero estimate, searching forward (later times)
then backward (earlier times).  This definition follows the claim's
words and is compared against `filled_std`, which embeds the source. -/
def subst_forward_backward {α : Type} [Zero α] [DecidableEq α]
    (stds : List (Option α)) (i : ℕ) : Option α :=
  match firstSome ((replaceZero stds).drop (i + 1)) with
  | some v => some v
  | none => lastSome ((replaceZero stds).take i)

/-- `PairsBacktester.calculate_zscore` (backtester.py lines 16-22):
`(spread - rolling_mean) / substituted_rolling_std`, `none` (NaN)
wherever the substituted standard deviation is undefined. -/
noncomputable def calculate_zscore (spread : List ℚ) (window : ℕ) : List (Option ℝ) :=
  (List.range spread.length).map (fun i =>
    ((filled_std spread window).getD i none).map (fun sd =>
      (((spread.getD i 0 : ℚ) : ℝ) - ((rolling_mean spread window).getD i 0 : ℝ)) / sd))

/-- `PairsBacktester.generate_signals` end to end: spread from the hedge
ratio, z-score with the default window 24, then the signal loop. -/
noncomputable def generate_signals (P : SignalParams ℝ) (p1 p2 : List ℚ) (hedge : ℚ) : List ℤ :=
  signalPositions P (calculate_zscore (List.zipWith (fun a b => a - hedge * b) p1 p2) 24)

/-! ### Parameter optimizer (optimize_params.py, `optimize_parameters`) -/

/-- Python float values as they appear in Sharpe-ratio comparisons:
NaN, the two infinities, or a finite value.  NaN compares false under
every strict comparison. -/
inductive FloatVal : Type where
  | nan : FloatVal
  | ninf : FloatVal
  | pinf : FloatVal
  | val (q : ℚ) : FloatVal
deriving DecidableEq

/-- IEEE strict greater-than on `FloatVal`: false whenever either side is
NaN. -/
def FloatVal.fgt : FloatVal → FloatVal → Prop
  | nan, _ => False
  | ninf, _ => False
  | pinf, nan => False
  | pinf, pinf => False
  | pinf, ninf => True
  | pinf, val _ => True
  | val _, nan => False
  | val _, pinf => False
  | val _, ninf => True
  | val x, val y => y < x

instance : (a b : FloatVal) → Decidable (a.fgt b)
  | .nan, _ => isFalse (fun h => h)
  | .ninf, _ => isFalse (fun h => h)
  | .pinf, .nan => isFalse (fun h => h)
  | .pinf, .pinf => isFalse (fun h => h)
  | .pinf, .ninf => isTrue trivial
  | .pinf, .val _ => isTrue trivial
  | .val _, .nan => isFalse (fun h => h)
  | .val _, .pinf => isFalse (fun h => h)
  | .val _, .ninf => isTrue trivial
  | .val x, .val y => decidable_of_iff (y < x) Iff.rfl

/-- The per-combination result of `backtest_pair` as read by the
optimizer; only the `sharpe` field is ever read by `optimize_parameters`,
so only it is carried. -/
structure BTResult : Type where
  sharpe : FloatVal
deriving DecidableEq

/-- The running state of the optimizer loop: `best_sharpe` starts at
`-np.inf`, `best_params`/`best_result` start unset. -/
structure OptState : Type where
  best_sharpe : FloatVal
  best_params : Option (ℚ × ℚ)
  best_result : Option BTResult

/-- One iteration of the optimizer loop (optimize_params.py lines 17-27):
a combination with no result is skipped; a result replaces the running
best only when its Sharpe ratio compares strictly greater. -/
def optStep (eval : ℚ × ℚ → Option BTResult) (st : OptState) (c : ℚ × ℚ) : OptState :=
  match eval c with
  | none => st
  | some r => if r.sharpe.fgt st.best_sharpe then ⟨r.sharpe, some c, some r⟩ else st

/-- The grid traversal of `itertools.product(z_entries, z_exits)` with the
`z_exit >= z_entry: continue` guard: entry-major order, invalid
combinations skipped. -/
def gridCombos (z_entries z_exits : List ℚ) : List (ℚ × ℚ) :=
  (z_entries.flatMap (fun e => z_exits.map (fun x => (e, x)))).filter
    (fun c => decide (c.2 < c.1))

/-- `optimize_parameters` (optimize_params.py lines 6-35) with the
per-combination backtest abstracted as `eval`: fold the loop over the
valid grid combinations, then return the best (params, result) pair when
one was recorded with a Sharpe above `-np.inf`, and (None, None)
otherwise. -/
def optimize_parameters (eval : ℚ × ℚ → Option BTResult)
    (z_entries z_exits : List ℚ) : Option ((ℚ × ℚ) × BTResult) :=
  let final := (gridCombos z_entries z_exits).foldl (optStep eval)
    ⟨FloatVal.ninf, none, none⟩
  match final.best_params, final.best_result with
  | some p, some r => if final.best_sharpe.fgt FloatVal.ninf then some (p, r) else none
  | _, _ => none

/-- The first element attaining the maximum of `s` over a combination
list (ties broken in favour of the earlier element).  This is the
selection rule as the claim words it; `optimize_parameters` is proved to
refine it. -/
def firstMaxBy (s : ℚ × ℚ → ℚ) : List (ℚ × ℚ) → Option (ℚ × ℚ)
  | [] => none
  | c :: t =>
    match firstMaxBy s t with
    | none => some c
    | some b => if s c < s b then some b else some c

/-! ## Theorems

### Helper lemmas for the signal state machine -/

theorem signalLoop_length {α : Type} [LinearOrderedField α] (P : SignalParams α)
    (zs : List (Option α)) : ∀ (prevZ : Option α) (s : ℤ),
    (signalLoop P prevZ s zs).length = zs.length := by
  induction zs with
  | nil => intro prevZ s; simp [signalLoop]
  | cons z t ih => intro prevZ s; simp [signalLoop, ih]

theorem signalPositions_length {α : Type} [LinearOrderedField α] (P : SignalParams α)
    (zs : List (Option α)) : (signalPositions P zs).length = zs.length := by
  cases zs with
  | nil => simp [signalPositions]
  | cons z t => simp [signalPositions, signalLoop_length]

theorem signalLoop_getD {α : Type} [LinearOrderedField α] (P : SignalParams α) :
    ∀ (zs : List (Option α)) (prevZ : Option α) (s : ℤ) (k : ℕ), k < zs.length →
      (signalLoop P prevZ s zs).getD k 0 =
        signalStep P (if k = 0 then prevZ else zs.getD (k - 1) none) (zs.getD k none)
          (if k = 0 then s else (signalLoop P prevZ s zs).getD (k - 1) 0) := by
  intro zs
  induction zs with
  | nil => intro prevZ s k hk; simp at hk
  | cons z t ih =>
    intro prevZ s k hk
    cases k with
    | zero => simp [signalLoop]
    | succ k =>
      have hk' : k < t.length := by simpa using hk
      have step1 : signalLoop P prevZ s (z :: t)
          = signalStep P prevZ z s :: signalLoop P z (signalStep P prevZ z s) t := by
        simp [signalLoop]
      rw [step1]
      cases k with
      | zero =>
        simp only [List.getD_cons_succ, List.getD_cons_zero]
        rw [ih z (signalStep P prevZ z s) 0 hk']
        simp
      | succ j =>
        simp only [List.getD_cons_succ]
        rw [ih z (signalStep P prevZ z s) (j + 1) hk']
        simp

theorem signalPositions_getD {α : Type} [LinearOrderedField α] (P : SignalParams α)
    (zs : List (Option α)) (i : ℕ) (h1 : 1 ≤ i) (h2 : i < zs.length) :
    (signalPositions P zs).getD i 0 =
      signalStep P (zs.getD (i - 1) none) (zs.getD i none)
        ((signalPositions P zs).getD (i - 1) 0) := by
  cases zs with
  | nil => simp at h2
  | cons z0 t =>
    obtain ⟨k, rfl⟩ : ∃ k, i = k + 1 := ⟨i - 1, by omega⟩
    have hk : k < t.length := by simpa using h2
    have hpos : signalPositions P (z0 :: t) = 0 :: signalLoop P z0 0 t := by
      simp [signalPositions]
    rw [hpos]
    simp only [List.getD_cons_succ, Nat.add_sub_cancel]
    rw [signalLoop_getD P t z0 0 k hk]
    cases k with
    | zero => simp
    | succ j => simp

theorem signalStep_cases {α : Type} [LinearOrderedField α] (P : SignalParams α)
    (prevZ curZ : Option α) (s : ℤ) :
    signalStep P prevZ curZ s = s ∨ signalStep P prevZ curZ s = 0
    ∨ (s = 0 ∧ (signalStep P prevZ curZ s = 1 ∨ signalStep P prevZ curZ s = -1)) := by
  unfold signalStep
  split_ifs <;> simp_all

theorem signalStep_mem {α : Type} [LinearOrderedField α] (P : SignalParams α)
    (prevZ curZ : Option α) (s : ℤ) (hs : s = -1 ∨ s = 0 ∨ s = 1) :
    signalStep P prevZ curZ s = -1 ∨ signalStep P prevZ curZ s = 0
    ∨ signalStep P prevZ curZ s = 1 := by
  rcases signalStep_cases P prevZ curZ s with h | h | ⟨h0, h | h⟩
  · rcases hs with rfl | rfl | rfl <;> simp [h]
  · simp [h]
  · simp [h]
  · simp [h]

theorem signalStep_diff {α : Type} [LinearOrderedField α] (P : SignalParams α)
    (prevZ curZ : Option α) (s : ℤ) (hs : s = -1 ∨ s = 0 ∨ s = 1) :
    |signalStep P prevZ curZ s - s| ≤ 1 := by
  rcases signalStep_cases P prevZ curZ s with h | h | ⟨rfl, h | h⟩
  · rw [h]; simp
  · rw [h]; rcases hs with rfl | rfl | rfl <;> decide
  · rw [h]; decide
  · rw [h]; decide

theorem signalLoop_mem {α : Type} [LinearOrderedField α] (P : SignalParams α) :
    ∀ (zs : List (Option α)) (prevZ : Option α) (s : ℤ),
      (s = -1 ∨ s = 0 ∨ s = 1) →
      ∀ x ∈ signalLoop P prevZ s zs, x = -1 ∨ x = 0 ∨ x = 1 := by
  intro zs
  induction zs with
  | nil => intro prevZ s hs x hx; simp [signalLoop] at hx
  | cons z t ih =>
    intro prevZ s hs x hx
    simp only [signalLoop, List.mem_cons] at hx
    rcases hx with rfl | hx
    · exact signalStep_mem P prevZ z s hs
    · exact ih z (signalStep P prevZ z s) (signalStep_mem P prevZ z s hs) x hx

theorem signalPositions_getD_mem {α : Type} [LinearOrderedField α] (P : SignalParams α)
    (zs : List (Option α)) (i : ℕ) :
    (signalPositions P zs).getD i 0 = -1 ∨ (signalPositions P zs).getD i 0 = 0
    ∨ (signalPositions P zs).getD i 0 = 1 := by
  cases zs with
  | nil => simp [signalPositions]
  | cons z0 t =>
    simp only [signalPositions]
    cases i with
    | zero => simp
    | succ j =>
      simp only [List.getD_cons_succ]
      by_cases hj : j < (signalLoop P z0 0 t).length
      · rw [List.getD_eq_getElem _ _ hj]
        exact signalLoop_mem P t z0 0 (by simp) _ (List.getElem_mem hj)
      · rw [List.getD_eq_default _ _ (by omega)]
        simp

theorem signalPositions_getD_zero {α : Type} [LinearOrderedField α] (P : SignalParams α)
    (zs : List (Option α)) : (signalPositions P zs).getD 0 0 = 0 := by
  cases zs with
  | nil => simp [signalPositions]
  | cons z0 t => simp [signalPositions]

theorem oAbsGt_of_le {α : Type} [LinearOrderedField α] (z : Option α) (st1 st2 : α)
    (h12 : st1 ≤ st2) (h : oAbsGt z st2) : oAbsGt z st1 := by
  cases z with
  | none => simp [oAbsGt] at h
  | some v => simp only [oAbsGt] at h ⊢; exact lt_of_le_of_lt h12 h

theorem signalStep_stop_divergence {α : Type} [LinearOrderedField α]
    (ent ext st1 st2 : α) (prevZ curZ : Option α) (s : ℤ) (h12 : st1 ≤ st2)
    (hne : signalStep ⟨ent, ext, st1⟩ prevZ curZ s
         ≠ signalStep ⟨ent, ext, st2⟩ prevZ curZ s) :
    signalStep ⟨ent, ext, st1⟩ prevZ curZ s = 0
    ∧ signalStep ⟨ent, ext, st2⟩ prevZ curZ s = s
    ∧ s ≠ 0 ∧ oAbsGt curZ st1 ∧ ¬ oAbsGt curZ st2 := by
  by_cases hs : s = 0
  · exfalso; apply hne; subst hs; simp [signalStep]
  · by_cases hA : (s = 1 ∧ oGt curZ (-ext)) ∨ (s = -1 ∧ oLt curZ ext)
    · exfalso
      apply hne
      have e1 : signalStep ⟨ent, ext, st1⟩ prevZ curZ s = 0 := by
        simp only [signalStep, if_neg hs]
        rw [if_pos]
        rcases hA with h | h
        · exact Or.inl h
        · exact Or.inr (Or.inl h)
      have e2 : signalStep ⟨ent, ext, st2⟩ prevZ curZ s = 0 := by
        simp only [signalStep, if_neg hs]
        rw [if_pos]
        rcases hA with h | h
        · exact Or.inl h
        · exact Or.inr (Or.inl h)
      rw [e1, e2]
    · by_cases hB2 : oAbsGt curZ st2
      · exfalso
        apply hne
        have hB1 : oAbsGt curZ st1 := oAbsGt_of_le curZ st1 st2 h12 hB2
        have e1 : signalStep ⟨ent, ext, st1⟩ prevZ curZ s = 0 := by
          simp only [signalStep, if_neg hs]
          rw [if_pos (Or.inr (Or.inr hB1))]
        have e2 : signalStep ⟨ent, ext, st2⟩ prevZ curZ s = 0 := by
          simp only [signalStep, if_neg hs]
          rw [if_pos (Or.inr (Or.inr hB2))]
        rw [e1, e2]
      · by_cases hB1 : oAbsGt curZ st1
        · have e1 : signalStep ⟨ent, ext, st1⟩ prevZ curZ s = 0 := by
            simp only [signalStep, if_neg hs]
            rw [if_pos (Or.inr (Or.inr hB1))]
          have e2 : signalStep ⟨ent, ext, st2⟩ prevZ curZ s = s := by
            simp only [signalStep, if_neg hs]
            rw [if_neg]
            intro hcon
            rcases hcon with h | h | h
            · exact hA (Or.inl h)
            · exact hA (Or.inr h)
            · exact hB2 h
          exact ⟨e1, e2, hs, hB1, hB2⟩
        · exfalso
          apply hne
          have e1 : signalStep ⟨ent, ext, st1⟩ prevZ curZ s = s := by
            simp only [signalStep, if_neg hs]
            rw [if_neg]
            intro hcon
            rcases hcon with h | h | h
            · exact hA (Or.inl h)
            · exact hA (Or.inr h)
            · exact hB1 h
          have e2 : signalStep ⟨ent, ext, st2⟩ prevZ curZ s = s := by
            simp only [signalStep, if_neg hs]
            rw [if_neg]
            intro hcon
            rcases hcon with h | h | h
            · exact hA (Or.inl h)
            · exact hA (Or.inr h)
            · exact hB2 h
          rw [e1, e2]

/-! ### C1: state-machine scenario -/

/-- C1: the Signal State Machine run on the z-score sequence
[0, -1.0, -2.1, -2.3, -0.4, 0.1] with z_entry=2.0, z_exit=0.5, z_stop=3.0
produces the position sequence [0, 0, +1, +1, 0, 0]: the long entry fires
at index 2 because the z-score crosses strictly below -z_entry from
at-or-above -z_entry on the previous bar, the position carries forward at
index 3, and the exit fires at index 4 when the z-score rises above
-z_exit. -/
theorem C1_state_machine_scenario :
    signalPositions (⟨2, 1/2, 3⟩ : SignalParams ℚ)
      [some 0, some (-1), some (-21/10), some (-23/10), some (-2/5), some (1/10)]
      = [0, 0, 1, 1, 0, 0] := by
  norm_num [signalPositions, signalLoop, signalStep, oLt, oGt, oGe, oLe, oAbsGt,
    abs_le, lt_abs]

/-! ### C9: per-bar position change is at most one unit -/

/-- C9: for every z-score series and parameters, the position series
changes by at most 1 per bar: a direct flip from +1 to -1 in a single bar
is unreachable because every exit passes through the flat state, so on
machine-generated signals the per-bar transaction cost |Δposition| * cost
never exceeds 1 * cost (for a nonnegative cost rate). -/
theorem C9_position_change_bounded :
    ∀ (P : SignalParams ℚ) (zs : List (Option ℚ)) (i : ℕ) (c : ℚ),
      1 ≤ i → 0 ≤ c →
      |(signalPositions P zs).getD i 0 - (signalPositions P zs).getD (i - 1) 0| ≤ 1
      ∧ ((|(signalPositions P zs).getD i 0 - (signalPositions P zs).getD (i - 1) 0| : ℤ) : ℚ) * c
          ≤ c := by
  intro P zs i c hi hc
  have key : |(signalPositions P zs).getD i 0 - (signalPositions P zs).getD (i - 1) 0| ≤ 1 := by
    by_cases h : i < zs.length
    · rw [signalPositions_getD P zs i hi h]
      exact signalStep_diff P (zs.getD (i - 1) none) (zs.getD i none) _
        (signalPositions_getD_mem P zs (i - 1))
    · have hlen : (signalPositions P zs).length ≤ i := by
        rw [signalPositions_length]; omega
      rw [List.getD_eq_default _ _ hlen]
      rcases signalPositions_getD_mem P zs (i - 1) with h1 | h1 | h1 <;> rw [h1] <;> decide
  refine ⟨key, ?_⟩
  have key2 : ((|(signalPositions P zs).getD i 0
      - (signalPositions P zs).getD (i - 1) 0| : ℤ) : ℚ) ≤ 1 := by
    exact_mod_cast key
  calc ((|(signalPositions P zs).getD i 0
      - (signalPositions P zs).getD (i - 1) 0| : ℤ) : ℚ) * c
      ≤ 1 * c := by
        apply mul_le_mul_of_nonneg_right key2 hc
    _ = c := one_mul c

/-- Witness for C9 at a concrete input: the machine on
[0, -3] with z_entry=2, z_exit=1/2, z_stop=3 and cost rate 1. -/
theorem C9_witness :
    |(signalPositions (⟨2, 1/2, 3⟩ : SignalParams ℚ) [some 0, some (-3)]).getD 1 0
      - (signalPositions (⟨2, 1/2, 3⟩ : SignalParams ℚ) [some 0, some (-3)]).getD 0 0| ≤ 1
    ∧ ((|(signalPositions (⟨2, 1/2, 3⟩ : SignalParams ℚ) [some 0, some (-3)]).getD 1 0
      - (signalPositions (⟨2, 1/2, 3⟩ : SignalParams ℚ) [some 0, some (-3)]).getD 0 0| : ℤ) : ℚ)
        * 1 ≤ 1 :=
  C9_position_change_bounded ⟨2, 1/2, 3⟩ [some 0, some (-3)] 1 1 le_rfl zero_le_one

/-! ### C4: effect of widening the stop-loss threshold -/

/-- C4 (amended): widening the stop-loss can change the position series
only by removing stop-loss exits: for z_stop <= z_stop' (same z_entry and
z_exit), at the first bar where the two position series differ, the
smaller-stop machine has just exited to flat on a stop-loss
(|z| > z_stop but not |z| > z_stop') while the larger-stop machine keeps
its previous non-flat position.  The original num_trades inequality is
refuted by `C4_counterexample_num_trades_increases`. -/
theorem C4_amended_first_divergence_is_stop_exit :
    ∀ (ent ext st1 st2 : ℚ) (zs : List (Option ℚ)) (i : ℕ),
      st1 ≤ st2 → i < zs.length →
      (∀ j, j < i → (signalPositions ⟨ent, ext, st1⟩ zs).getD j 0
                  = (signalPositions ⟨ent, ext, st2⟩ zs).getD j 0) →
      (signalPositions ⟨ent, ext, st1⟩ zs).getD i 0
        ≠ (signalPositions ⟨ent, ext, st2⟩ zs).getD i 0 →
      (signalPositions ⟨ent, ext, st1⟩ zs).getD i 0 = 0
      ∧ (signalPositions ⟨ent, ext, st2⟩ zs).getD i 0
          = (signalPositions ⟨ent, ext, st2⟩ zs).getD (i - 1) 0
      ∧ (signalPositions ⟨ent, ext, st2⟩ zs).getD i 0 ≠ 0
      ∧ oAbsGt (zs.getD i none) st1
      ∧ ¬ oAbsGt (zs.getD i none) st2 := by
  intro ent ext st1 st2 zs i h12 hlen hpre hne
  have hi : 1 ≤ i := by
    by_contra hcon
    have hi0 : i = 0 := by omega
    subst hi0
    exact hne ((signalPositions_getD_zero ⟨ent, ext, st1⟩ zs).trans
      (signalPositions_getD_zero ⟨ent, ext, st2⟩ zs).symm)
  have hprev : (signalPositions (⟨ent, ext, st1⟩ : SignalParams ℚ) zs).getD (i - 1) 0
      = (signalPositions (⟨ent, ext, st2⟩ : SignalParams ℚ) zs).getD (i - 1) 0 :=
    hpre (i - 1) (by omega)
  have e1 := signalPositions_getD (⟨ent, ext, st1⟩ : SignalParams ℚ) zs i hi hlen
  have e2 := signalPositions_getD (⟨ent, ext, st2⟩ : SignalParams ℚ) zs i hi hlen
  rw [e1, e2, hprev] at hne
  obtain ⟨d1, d2, d3, d4, d5⟩ := signalStep_stop_divergence ent ext st1 st2
    (zs.getD (i - 1) none) (zs.getD i none)
    ((signalPositions (⟨ent, ext, st2⟩ : SignalParams ℚ) zs).getD (i - 1) 0) h12 hne
  rw [e1, hprev, e2]
  exact ⟨d1, d2, by rw [d2]; exact d3, d4, d5⟩

/-- Counterexample for C4 as stated: on the z-score series
[0, -2.1, -2.6, -2.6] with z_entry=2 and z_exit=1/2, prices
[1, 1.1, 1.2, 1.3] against a constant series, hedge ratio 1 and
transaction cost 0.001, raising z_stop from 2.5 to 3 raises num_trades
from 2 to 3 (the wider stop keeps the position alive, producing more
non-zero net-return bars), so increasing z_stop can increase
num_trades. -/
theorem C4_counterexample_num_trades_increases :
    (5/2 : ℚ) < 3
    ∧ num_trades (calculate_returns [1, 11/10, 12/10, 13/10] [1, 1, 1, 1]
        (signalPositions (⟨2, 1/2, 5/2⟩ : SignalParams ℚ)
          [some 0, some (-21/10), some (-26/10), some (-26/10)]) 1 (1/1000)) = 2
    ∧ num_trades (calculate_returns [1, 11/10, 12/10, 13/10] [1, 1, 1, 1]
        (signalPositions (⟨2, 1/2, 3⟩ : SignalParams ℚ)
          [some 0, some (-21/10), some (-26/10), some (-26/10)]) 1 (1/1000)) = 3 := by
  refine ⟨by norm_num, ?_, ?_⟩ <;>
    norm_num [signalPositions, signalLoop, signalStep, oLt, oGt, oGe, oLe, oAbsGt,
      abs_le, lt_abs, calculate_returns, pctChange, shiftPos, diffPos, zip3,
      num_trades, List.countP_cons, List.countP_nil, List.filterMap_cons,
      List.filterMap_nil]

/-- Witness for the amended C4 at a concrete input: on the z-score series
[0, -2.1, -2.6, -2.6], with stops 5/2 <= 3, the two position series first
differ at bar 2, where the narrow-stop machine is flat, the wide-stop
machine keeps its bar-1 position, and only |z| > 5/2 holds. -/
theorem C4_amended_witness :
    (signalPositions (⟨2, 1/2, 5/2⟩ : SignalParams ℚ)
        [some 0, some (-21/10), some (-26/10), some (-26/10)]).getD 2 0 = 0
    ∧ (signalPositions (⟨2, 1/2, 3⟩ : SignalParams ℚ)
        [some 0, some (-21/10), some (-26/10), some (-26/10)]).getD 2 0
      = (signalPositions (⟨2, 1/2, 3⟩ : SignalParams ℚ)
        [some 0, some (-21/10), some (-26/10), some (-26/10)]).getD 1 0
    ∧ (signalPositions (⟨2, 1/2, 3⟩ : SignalParams ℚ)
        [some 0, some (-21/10), some (-26/10), some (-26/10)]).getD 2 0 ≠ 0
    ∧ oAbsGt (([some 0, some (-21/10), some (-26/10), some (-26/10)]
        : List (Option ℚ)).getD 2 none) (5/2)
    ∧ ¬ oAbsGt (([some 0, some (-21/10), some (-26/10), some (-26/10)]
        : List (Option ℚ)).getD 2 none) 3 :=
  C4_amended_first_divergence_is_stop_exit 2 (1/2) (5/2) 3
    [some 0, some (-21/10), some (-26/10), some (-26/10)] 2
    (by norm_num) (by norm_num)
    (by
      intro j hj
      interval_cases j <;>
        norm_num [signalPositions, signalLoop, signalStep, oLt, oGt, oGe, oLe, oAbsGt,
          abs_le, lt_abs])
    (by
      norm_num [signalPositions, signalLoop, signalStep, oLt, oGt, oGe, oLe, oAbsGt,
        abs_le, lt_abs])

/-! ### Helper lemmas for the returns accountant -/

theorem calculate_returns_cons (x x' : ℚ) (xs : List ℚ) (y y' : ℚ) (ys : List ℚ)
    (q q' : ℤ) (qs : List ℤ) (h c : ℚ) :
    calculate_returns (x :: x' :: xs) (y :: y' :: ys) (q :: q' :: qs) h c
      = ((q : ℚ) * ((x'/x - 1) - h * (y'/y - 1)) - |((q' - q : ℤ) : ℚ)| * c)
        :: calculate_returns (x' :: xs) (y' :: ys) (q' :: qs) h c := by
  simp [calculate_returns, pctChange, shiftPos, diffPos, zip3, List.filterMap_cons]

theorem calculate_returns_one (x : ℚ) (y : ℚ) (q : ℤ) (h c : ℚ) :
    calculate_returns [x] [y] [q] h c = [] := by
  simp [calculate_returns, pctChange, shiftPos, diffPos, zip3]

theorem calculate_returns_nil (h c : ℚ) : calculate_returns [] [] [] h c = [] := by
  simp [calculate_returns, pctChange, shiftPos, diffPos, zip3]

theorem calculate_returns_length (h c : ℚ) :
    ∀ (n : ℕ) (p1 p2 : List ℚ) (pos : List ℤ),
      p1.length = n → p2.length = n → pos.length = n →
      (calculate_returns p1 p2 pos h c).length = n - 1 := by
  intro n
  induction n with
  | zero =>
    intro p1 p2 pos h1 h2 h3
    obtain rfl := List.eq_nil_of_length_eq_zero h1
    obtain rfl := List.eq_nil_of_length_eq_zero h2
    obtain rfl := List.eq_nil_of_length_eq_zero h3
    simp [calculate_returns_nil]
  | succ m ih =>
    intro p1 p2 pos h1 h2 h3
    obtain ⟨x, p1', rfl⟩ : ∃ a l, p1 = a :: l := by
      cases p1 with
      | nil => simp at h1
      | cons a l => exact ⟨a, l, rfl⟩
    obtain ⟨y, p2', rfl⟩ : ∃ a l, p2 = a :: l := by
      cases p2 with
      | nil => simp at h2
      | cons a l => exact ⟨a, l, rfl⟩
    obtain ⟨q, pos', rfl⟩ : ∃ a l, pos = a :: l := by
      cases pos with
      | nil => simp at h3
      | cons a l => exact ⟨a, l, rfl⟩
    cases m with
    | zero =>
      obtain rfl := List.eq_nil_of_length_eq_zero (by simpa using h1)
      obtain rfl := List.eq_nil_of_length_eq_zero (by simpa using h2)
      obtain rfl := List.eq_nil_of_length_eq_zero (by simpa using h3)
      simp [calculate_returns_one]
    | succ k =>
      obtain ⟨x', xs, rfl⟩ : ∃ a l, p1' = a :: l := by
        cases p1' with
        | nil => simp at h1
        | cons a l => exact ⟨a, l, rfl⟩
      obtain ⟨y', ys, rfl⟩ : ∃ a l, p2' = a :: l := by
        cases p2' with
        | nil => simp at h2
        | cons a l => exact ⟨a, l, rfl⟩
      obtain ⟨q', qs, rfl⟩ : ∃ a l, pos' = a :: l := by
        cases pos' with
        | nil => simp at h3
        | cons a l => exact ⟨a, l, rfl⟩
      rw [calculate_returns_cons]
      have hrec := ih (x' :: xs) (y' :: ys) (q' :: qs)
        (by simpa using h1) (by simpa using h2) (by simpa using h3)
      simp only [List.length_cons, hrec]
      omega

theorem calculate_returns_getD (h c : ℚ) :
    ∀ (t : ℕ) (n : ℕ) (p1 p2 : List ℚ) (pos : List ℤ),
      p1.length = n → p2.length = n → pos.length = n → 1 ≤ t → t < n →
      (calculate_returns p1 p2 pos h c).getD (t - 1) 0 =
        ((pos.getD (t - 1) 0 : ℤ) : ℚ)
          * ((p1.getD t 0 / p1.getD (t - 1) 0 - 1)
             - h * (p2.getD t 0 / p2.getD (t - 1) 0 - 1))
        - |((pos.getD t 0 - pos.getD (t - 1) 0 : ℤ) : ℚ)| * c := by
  intro t
  induction t with
  | zero => intro n p1 p2 pos h1 h2 h3 ht hn; omega
  | succ k ih =>
    intro n p1 p2 pos h1 h2 h3 ht hn
    obtain ⟨x, x', xs, rfl⟩ : ∃ a b l, p1 = a :: b :: l := by
      cases p1 with
      | nil => simp at h1; omega
      | cons a l =>
        cases l with
        | nil => simp at h1; omega
        | cons b l2 => exact ⟨a, b, l2, rfl⟩
    obtain ⟨y, y', ys, rfl⟩ : ∃ a b l, p2 = a :: b :: l := by
      cases p2 with
      | nil => simp at h2; omega
      | cons a l =>
        cases l with
        | nil => simp at h2; omega
        | cons b l2 => exact ⟨a, b, l2, rfl⟩
    obtain ⟨q, q', qs, rfl⟩ : ∃ a b l, pos = a :: b :: l := by
      cases pos with
      | nil => simp at h3; omega
      | cons a l =>
        cases l with
        | nil => simp at h3; omega
        | cons b l2 => exact ⟨a, b, l2, rfl⟩
    rw [calculate_returns_cons]
    cases k with
    | zero => simp
    | succ j =>
      have hrec := ih (n - 1) (x' :: xs) (y' :: ys) (q' :: qs)
        (by simp at h1 ⊢; omega) (by simp at h2 ⊢; omega) (by simp at h3 ⊢; omega)
        (by omega) (by omega)
      simp only [Nat.add_sub_cancel] at hrec ⊢
      simp only [List.getD_cons_succ] at hrec ⊢
      exact hrec

/-! ### C2: returns and cost accounting -/

/-- C2: for every pair price series, signal series, hedge ratio and cost
rate, the accountant computes, at each bar t after the first,
net return = position[t-1] * (return1[t] - hedge * return2[t])
- |position[t] - position[t-1]| * cost, where each return is the
bar-over-bar simple percentage return; a position that flips from +1 to
-1 in one bar with cost 0.001 is charged 0.002 on that bar, and the
leading bar with no defined prior return is dropped from the output
(the output has length n - 1). -/
theorem C2_returns_accounting :
    ∀ (p1 p2 : List ℚ) (pos : List ℤ) (h c : ℚ) (n : ℕ),
      p1.length = n → p2.length = n → pos.length = n → 1 ≤ n →
      (calculate_returns p1 p2 pos h c).length = n - 1
      ∧ (∀ t, 1 ≤ t → t < n →
          (calculate_returns p1 p2 pos h c).getD (t - 1) 0 =
            ((pos.getD (t - 1) 0 : ℤ) : ℚ)
              * ((p1.getD t 0 / p1.getD (t - 1) 0 - 1)
                 - h * (p2.getD t 0 / p2.getD (t - 1) 0 - 1))
            - |((pos.getD t 0 - pos.getD (t - 1) 0 : ℤ) : ℚ)| * c)
      ∧ calculate_returns [1, 1, 1] [1, 1, 1] [0, 1, -1] 1 (1/1000)
          = [-1/1000, -1/500] := by
  intro p1 p2 pos h c n h1 h2 h3 hn
  refine ⟨calculate_returns_length h c n p1 p2 pos h1 h2 h3,
    fun t ht htn => calculate_returns_getD h c t n p1 p2 pos h1 h2 h3 ht htn, ?_⟩
  norm_num [calculate_returns, pctChange, shiftPos, diffPos, zip3,
    List.filterMap_cons]

/-- Witness for C2 at a concrete input: prices [1, 2] and [1, 1],
positions [0, 1], hedge 1, cost 0. -/
theorem C2_witness :
    (calculate_returns [1, 2] [1, 1] [0, 1] 1 0).length = 2 - 1
    ∧ (∀ t, 1 ≤ t → t < 2 →
        (calculate_returns [1, 2] [1, 1] [0, 1] 1 0).getD (t - 1) 0 =
          ((([0, 1] : List ℤ).getD (t - 1) 0 : ℤ) : ℚ)
            * ((([1, 2] : List ℚ).getD t 0 / ([1, 2] : List ℚ).getD (t - 1) 0 - 1)
               - 1 * (([1, 1] : List ℚ).getD t 0 / ([1, 1] : List ℚ).getD (t - 1) 0 - 1))
          - |((([0, 1] : List ℤ).getD t 0 - ([0, 1] : List ℤ).getD (t - 1) 0 : ℤ) : ℚ)| * 0)
    ∧ calculate_returns [1, 1, 1] [1, 1, 1] [0, 1, -1] 1 (1/1000)
        = [-1/1000, -1/500] :=
  C2_returns_accounting [1, 2] [1, 1] [0, 1] 1 0 2 rfl rfl rfl one_le_two

/-! ### C5: a z-score series that never exceeds the entry threshold -/

theorem signalStep_flat_of_bounded {α : Type} [LinearOrderedField α] (P : SignalParams α)
    (prevZ curZ : Option α) (hb : ∀ q, curZ = some q → |q| ≤ P.z_entry) :
    signalStep P prevZ curZ 0 = 0 := by
  have hA : ¬ (oLt curZ (-P.z_entry) ∧ oGe prevZ (-P.z_entry)) := by
    rintro ⟨hlt, -⟩
    cases curZ with
    | none => simp [oLt] at hlt
    | some v =>
      simp only [oLt] at hlt
      have hv := hb v rfl
      have := neg_abs_le v
      linarith [neg_le_neg hv]
  have hB : ¬ (oGt curZ P.z_entry ∧ oLe prevZ P.z_entry) := by
    rintro ⟨hgt, -⟩
    cases curZ with
    | none => simp [oGt] at hgt
    | some v =>
      simp only [oGt] at hgt
      have hv := hb v rfl
      have := le_abs_self v
      linarith
  simp only [signalStep, if_pos rfl, if_neg hA, if_neg hB]
  simp

theorem signalLoop_flat {α : Type} [LinearOrderedField α] (P : SignalParams α) :
    ∀ (zs : List (Option α)) (prevZ : Option α),
      (∀ o ∈ zs, ∀ q, o = some q → |q| ≤ P.z_entry) →
      signalLoop P prevZ 0 zs = List.replicate zs.length 0 := by
  intro zs
  induction zs with
  | nil => intro prevZ hb; simp [signalLoop]
  | cons z t ih =>
    intro prevZ hb
    have hz : signalStep P prevZ z 0 = 0 :=
      signalStep_flat_of_bounded P prevZ z (fun q hq => hb z (by simp) q hq)
    simp only [signalLoop, hz, List.length_cons, List.replicate_succ]
    exact congrArg (0 :: ·) (ih z (fun o ho q hq => hb o (by simp [ho]) q hq))

theorem signalPositions_flat {α : Type} [LinearOrderedField α] (P : SignalParams α)
    (zs : List (Option α)) (hb : ∀ o ∈ zs, ∀ q, o = some q → |q| ≤ P.z_entry) :
    signalPositions P zs = List.replicate zs.length 0 := by
  cases zs with
  | nil => simp [signalPositions]
  | cons z0 t =>
    simp only [signalPositions, List.length_cons, List.replicate_succ]
    exact congrArg (0 :: ·)
      (signalLoop_flat P t z0 (fun o ho q hq => hb o (by simp [ho]) q hq))

theorem getD_replicate_zero (n i : ℕ) : (List.replicate n (0 : ℤ)).getD i 0 = 0 := by
  by_cases h : i < n
  · rw [List.getD_eq_getElem _ _ (by simpa using h)]
    simp
  · rw [List.getD_eq_default _ _ (by simpa using h)]

theorem calculate_returns_zero_positions (p1 p2 : List ℚ) (h c : ℚ) (n : ℕ)
    (h1 : p1.length = n) (h2 : p2.length = n) :
    calculate_returns p1 p2 (List.replicate n 0) h c = List.replicate (n - 1) 0 := by
  apply List.ext_getElem
  · rw [calculate_returns_length h c n p1 p2 _ h1 h2 (by simp)]
    simp
  · intro i hi1 hi2
    have hlen : (calculate_returns p1 p2 (List.replicate n 0) h c).length = n - 1 :=
      calculate_returns_length h c n p1 p2 _ h1 h2 (by simp)
    have hin : i + 1 < n := by omega
    have hfor := calculate_returns_getD h c (i + 1) n p1 p2 (List.replicate n 0)
      h1 h2 (by simp) (by omega) hin
    simp only [Nat.add_sub_cancel] at hfor
    rw [← List.getD_eq_getElem _ 0 hi1, hfor]
    simp [getD_replicate_zero]

/-- C5 (amended): for every z-score series whose defined values never
exceed z_entry in absolute value, the Signal State Machine produces an
all-zero position series; the resulting Net Return Series is then the
all-zero series of length n - 1 (not the empty series), and for a pair
with at least 2 bars the backtest consequently yields a degenerate
all-zero result rather than no result (the series is empty only when
fewer than 2 bars exist). -/
theorem C5_amended_flat_machine_all_zero_returns :
    ∀ (P : SignalParams ℚ) (zs : List (Option ℚ)) (p1 p2 : List ℚ) (h c : ℚ) (n : ℕ),
      zs.length = n → p1.length = n → p2.length = n →
      (∀ o ∈ zs, ∀ q, o = some q → |q| ≤ P.z_entry) →
      signalPositions P zs = List.replicate n 0
      ∧ calculate_returns p1 p2 (signalPositions P zs) h c = List.replicate (n - 1) 0
      ∧ (2 ≤ n → backtest_result (calculate_returns p1 p2 (signalPositions P zs) h c)
          = some (List.replicate (n - 1) 0)) := by
  intro P zs p1 p2 h c n hz h1 h2 hb
  have hflat : signalPositions P zs = List.replicate n 0 := by
    rw [signalPositions_flat P zs hb, hz]
  have hzero : calculate_returns p1 p2 (signalPositions P zs) h c
      = List.replicate (n - 1) 0 := by
    rw [hflat]
    exact calculate_returns_zero_positions p1 p2 h c n h1 h2
  refine ⟨hflat, hzero, fun hn => ?_⟩
  rw [hzero]
  unfold backtest_result
  rw [if_neg]
  intro hcon
  have := congrArg List.length hcon
  simp at this
  omega

/-- Counterexample for C5 as stated: the z-score series [0, 1, 0] never
exceeds z_entry = 2 in absolute value and produces the all-zero position
series, yet with prices [1, 2, 4] against [1, 1, 1] the Net Return Series
handed to the caller is [0, 0], which is not empty, and the backtest
returns a result rather than no result. -/
theorem C5_counterexample_returns_not_empty :
    (∀ o ∈ ([some 0, some 1, some 0] : List (Option ℚ)), ∀ q, o = some q → |q| ≤ (2 : ℚ))
    ∧ signalPositions (⟨2, 1/2, 3⟩ : SignalParams ℚ) [some 0, some 1, some 0] = [0, 0, 0]
    ∧ calculate_returns [1, 2, 4] [1, 1, 1]
        (signalPositions (⟨2, 1/2, 3⟩ : SignalParams ℚ) [some 0, some 1, some 0]) 1 (1/1000)
        = [0, 0]
    ∧ ([0, 0] : List ℚ) ≠ []
    ∧ backtest_result (calculate_returns [1, 2, 4] [1, 1, 1]
        (signalPositions (⟨2, 1/2, 3⟩ : SignalParams ℚ) [some 0, some 1, some 0]) 1 (1/1000))
        ≠ none := by
  have hb : ∀ o ∈ ([some 0, some 1, some 0] : List (Option ℚ)), ∀ q, o = some q →
      |q| ≤ (2 : ℚ) := by
    intro o ho q hq
    simp only [List.mem_cons, List.not_mem_nil, or_false] at ho
    rcases ho with rfl | rfl | rfl <;>
      (injection hq with hq2; subst hq2; norm_num)
  have hpos : signalPositions (⟨2, 1/2, 3⟩ : SignalParams ℚ) [some 0, some 1, some 0]
      = [0, 0, 0] := by
    norm_num [signalPositions, signalLoop, signalStep, oLt, oGt, oGe, oLe, oAbsGt,
      abs_le, lt_abs]
  have hret : calculate_returns [1, 2, 4] [1, 1, 1]
      (signalPositions (⟨2, 1/2, 3⟩ : SignalParams ℚ) [some 0, some 1, some 0]) 1 (1/1000)
      = [0, 0] := by
    rw [hpos]
    norm_num [calculate_returns, pctChange, shiftPos, diffPos, zip3, List.filterMap_cons]
  refine ⟨hb, hpos, hret, by simp, ?_⟩
  rw [hret]
  simp [backtest_result]

/-- Witness for the amended C5 at a concrete input: the z-score series
[0, 1, 0] with prices [1, 2, 4] and [1, 1, 1]. -/
theorem C5_amended_witness :
    signalPositions (⟨2, 1/2, 3⟩ : SignalParams ℚ) [some 0, some 1, some 0]
      = List.replicate 3 0
    ∧ calculate_returns [1, 2, 4] [1, 1, 1]
        (signalPositions (⟨2, 1/2, 3⟩ : SignalParams ℚ) [some 0, some 1, some 0]) 1 (1/1000)
      = List.replicate (3 - 1) 0
    ∧ (2 ≤ 3 → backtest_result (calculate_returns [1, 2, 4] [1, 1, 1]
        (signalPositions (⟨2, 1/2, 3⟩ : SignalParams ℚ) [some 0, some 1, some 0]) 1 (1/1000))
      = some (List.replicate (3 - 1) 0)) :=
  C5_amended_flat_machine_all_zero_returns ⟨2, 1/2, 3⟩ [some 0, some 1, some 0]
    [1, 2, 4] [1, 1, 1] 1 (1/1000) 3 rfl rfl rfl
    (by
      intro o ho q hq
      simp only [List.mem_cons, List.not_mem_nil, or_false] at ho
      rcases ho with rfl | rfl | rfl <;>
        (injection hq with hq2; subst hq2; norm_num))

/-! ### C6: half-life regression coefficient -/

theorem sampleCov_eq_scale_popCov (xs ys : List ℚ) (hn : 2 ≤ xs.length) :
    sampleCov xs ys = ((xs.length : ℚ) / ((xs.length : ℚ) - 1)) * popCov xs ys := by
  have hn0 : (xs.length : ℚ) ≠ 0 := by
    have : (2 : ℚ) ≤ (xs.length : ℚ) := by exact_mod_cast hn
    linarith
  have hn1 : (xs.length : ℚ) - 1 ≠ 0 := by
    have : (2 : ℚ) ≤ (xs.length : ℚ) := by exact_mod_cast hn
    intro hcon
    have : (xs.length : ℚ) = 1 := by linarith
    linarith
  unfold sampleCov popCov
  field_simp
  ring

theorem half_life_beta_eq_scale_ols (spread : List ℚ) (hn : 2 ≤ (spread_ret spread).length) :
    half_life_beta spread
      = (((spread_ret spread).length : ℚ) / (((spread_ret spread).length : ℚ) - 1))
        * half_life_beta_ols spread := by
  unfold half_life_beta half_life_beta_ols
  rw [sampleCov_eq_scale_popCov _ _ hn, mul_div_assoc]

/-- C6 (amended): the half-life computation pairs the spread's first
difference with its own lagged level and returns +infinity when fewer
than 2 paired observations exist; its regression coefficient, however, is
not the ordinary-least-squares slope but
`np.cov(..., ddof=1)/np.var(..., ddof=0)` = n/(n-1) times the OLS slope
(n = number of pairs), and the returned value is -ln(2)/beta for that
scaled coefficient when it is negative, +infinity otherwise. -/
theorem C6_amended_half_life_scaled_beta :
    ∀ (spread : List ℚ),
      ((spread_ret spread).length < 2 → calculate_half_life spread = HalfLife.inf)
      ∧ (2 ≤ (spread_ret spread).length →
          half_life_beta spread
            = (((spread_ret spread).length : ℚ) / (((spread_ret spread).length : ℚ) - 1))
              * half_life_beta_ols spread
          ∧ calculate_half_life spread
            = (if half_life_beta spread < 0
               then HalfLife.negLogTwoDiv (half_life_beta spread) else HalfLife.inf)) := by
  intro spread
  constructor
  · intro hlt
    simp [calculate_half_life, if_pos hlt]
  · intro hge
    refine ⟨half_life_beta_eq_scale_ols spread hge, ?_⟩
    rw [calculate_half_life, if_neg (by omega)]

/-- Counterexample for C6 as stated: on the spread [2, 0, 1] the code's
coefficient is -3 (sample covariance over population variance) while the
OLS slope is -3/2, and the returned half-life -ln(2)/(-3) differs from
the claimed -ln(2)/(-3/2). -/
theorem C6_counterexample_not_ols :
    calculate_half_life [2, 0, 1] = HalfLife.negLogTwoDiv (-3)
    ∧ calculate_half_life_ols [2, 0, 1] = HalfLife.negLogTwoDiv (-3/2)
    ∧ (calculate_half_life [2, 0, 1]).toEReal ≠ (calculate_half_life_ols [2, 0, 1]).toEReal := by
  have hret : spread_ret [2, 0, 1] = [-2, 1] := by
    norm_num [spread_ret]
  have hlag : spread_lag [2, 0, 1] = [2, 0] := by
    norm_num [spread_lag]
  have hbeta : half_life_beta [2, 0, 1] = -3 := by
    rw [half_life_beta, hret, hlag]
    norm_num [sampleCov, popVar, centeredProdSum, centeredSqSum, listMean]
  have hbetao : half_life_beta_ols [2, 0, 1] = -3/2 := by
    rw [half_life_beta_ols, hret, hlag]
    norm_num [popCov, popVar, centeredProdSum, centeredSqSum, listMean]
  have h1 : calculate_half_life [2, 0, 1] = HalfLife.negLogTwoDiv (-3) := by
    rw [calculate_half_life, if_neg (by rw [hret]; norm_num), if_pos (by rw [hbeta]; norm_num),
      hbeta]
  have h2 : calculate_half_life_ols [2, 0, 1] = HalfLife.negLogTwoDiv (-3/2) := by
    rw [calculate_half_life_ols, if_neg (by rw [hret]; norm_num),
      if_pos (by rw [hbetao]; norm_num), hbetao]
  refine ⟨h1, h2, ?_⟩
  rw [h1, h2]
  simp only [HalfLife.toEReal, ne_eq, EReal.coe_eq_coe_iff]
  intro hcon
  have hlog : 0 < Real.log 2 := Real.log_pos (by norm_num)
  push_cast at hcon
  rw [div_eq_div_iff (by norm_num) (by norm_num)] at hcon
  nlinarith

/-- Witness for the amended C6 at the concrete spread [2, 0, 1]:
2 paired observations, coefficient -3 = 2 * (-3/2). -/
theorem C6_amended_witness :
    half_life_beta [2, 0, 1]
      = (((spread_ret [2, 0, 1]).length : ℚ) / (((spread_ret [2, 0, 1]).length : ℚ) - 1))
        * half_life_beta_ols [2, 0, 1]
    ∧ calculate_half_life [2, 0, 1]
      = (if half_life_beta [2, 0, 1] < 0
         then HalfLife.negLogTwoDiv (half_life_beta [2, 0, 1]) else HalfLife.inf) :=
  (C6_amended_half_life_scaled_beta [2, 0, 1]).2 (by norm_num [spread_ret])

/-! ### C8: insufficient aligned data produces no result -/

/-- C8: for every pair of input price series, when fewer than 30 aligned
observations remain after inner-joining on timestamp, the cointegration
tester produces no result (returns None) rather than raising an error,
`test_pair` propagates the no-result, and such a pair never affects the
processing of the remaining pairs. -/
theorem C8_insufficient_data_no_result :
    ∀ (adf : List ℚ → ℚ × ℚ) (pearson : List ℚ → List ℚ → ℚ) (name : String)
      (s1 s2 : List (ℕ × ℚ)),
      (alignSeries s1 s2).length < 30 →
      engle_granger_test adf s1 s2 = none
      ∧ test_pair adf pearson name s1 s2 = none
      ∧ ∀ rest, process_pairs adf pearson ((name, s1, s2) :: rest)
          = process_pairs adf pearson rest := by
  intro adf pearson name s1 s2 hlt
  have heg : engle_granger_test adf s1 s2 = none := by
    simp [engle_granger_test, if_pos hlt]
  have htp : test_pair adf pearson name s1 s2 = none := by
    simp [test_pair, heg]
  refine ⟨heg, htp, fun rest => ?_⟩
  simp [process_pairs, List.filterMap_cons, htp]

/-- Witness for C8 at a concrete input: two empty series (0 aligned
observations) with trivial external collaborators. -/
theorem C8_witness :
    engle_granger_test (fun _ => (0, 0)) [] [] = none
    ∧ test_pair (fun _ => (0, 0)) (fun _ _ => 0) "pair_a" [] [] = none
    ∧ process_pairs (fun _ => (0, 0)) (fun _ _ => 0) [("pair_a", [], [])]
        = process_pairs (fun _ => (0, 0)) (fun _ _ => 0) [] := by
  obtain ⟨a, b, c⟩ := C8_insufficient_data_no_result (fun _ => (0, 0)) (fun _ _ => 0)
    "pair_a" [] [] (by simp [alignSeries])
  exact ⟨a, b, c []⟩

/-! ### Helper lemmas for the parameter optimizer -/

theorem optFold_val (s : ℚ × ℚ → ℚ) :
    ∀ (combos : List (ℚ × ℚ)) (b : ℚ) (p : ℚ × ℚ),
      combos.foldl (optStep (fun c => some ⟨FloatVal.val (s c)⟩))
        ⟨FloatVal.val b, some p, some ⟨FloatVal.val b⟩⟩
      = (match firstMaxBy s combos with
         | none => ⟨FloatVal.val b, some p, some ⟨FloatVal.val b⟩⟩
         | some m => if b < s m
             then ⟨FloatVal.val (s m), some m, some ⟨FloatVal.val (s m)⟩⟩
             else ⟨FloatVal.val b, some p, some ⟨FloatVal.val b⟩⟩) := by
  intro combos
  induction combos with
  | nil => intro b p; rfl
  | cons c t ih =>
    intro b p
    have hstep : optStep (fun c => some ⟨FloatVal.val (s c)⟩)
        ⟨FloatVal.val b, some p, some ⟨FloatVal.val b⟩⟩ c
        = if b < s c
            then ⟨FloatVal.val (s c), some c, some ⟨FloatVal.val (s c)⟩⟩
            else ⟨FloatVal.val b, some p, some ⟨FloatVal.val b⟩⟩ := by
      simp only [optStep, FloatVal.fgt]
    rw [List.foldl_cons, hstep]
    by_cases hbc : b < s c
    · rw [if_pos hbc, ih (s c) c]
      rcases h : firstMaxBy s t with - | m
      · simp [firstMaxBy, h, hbc]
      · by_cases hcm : s c < s m
        · have hbm : b < s m := by linarith
          simp [firstMaxBy, h, hcm, hbm]
        · simp [firstMaxBy, h, hcm, hbc]
    · rw [if_neg hbc, ih b p]
      rcases h : firstMaxBy s t with - | m
      · simp [firstMaxBy, h, hbc]
      · by_cases hcm : s c < s m
        · simp [firstMaxBy, h, hcm]
        · have hbm : ¬ b < s m := by
            push_neg at hcm hbc ⊢
            linarith
          simp [firstMaxBy, h, hcm, hbc, hbm]

theorem firstMaxBy_cons (s : ℚ × ℚ → ℚ) (c : ℚ × ℚ) (t : List (ℚ × ℚ)) :
    firstMaxBy s (c :: t)
      = (match firstMaxBy s t with
         | none => some c
         | some b => if s c < s b then some b else some c) := rfl

/-! ### C3: optimizer grid and selection rule -/

/-- C3: the optimizer evaluates exactly the grid combinations with
z_exit strictly below z_entry, so entry grid [2, 3] with exit grid
[0.5, 1.5] yields exactly the 4 combinations
(2, 0.5), (2, 1.5), (3, 0.5), (3, 1.5) in entry-major traversal order,
and for any Sharpe values attached to these combinations it returns the
first-seen combination attaining the strictly highest Sharpe ratio
(ties broken by first-seen order, formalized by `firstMaxBy`). -/
theorem C3_optimizer_grid_and_selection :
    ∀ (s : ℚ × ℚ → ℚ),
      gridCombos [2, 3] [1/2, 3/2] = [(2, 1/2), (2, 3/2), (3, 1/2), (3, 3/2)]
      ∧ (gridCombos [2, 3] [1/2, 3/2]).length = 4
      ∧ optimize_parameters (fun c => some ⟨FloatVal.val (s c)⟩) [2, 3] [1/2, 3/2]
          = (firstMaxBy s (gridCombos [2, 3] [1/2, 3/2])).map
              (fun m => (m, ⟨FloatVal.val (s m)⟩)) := by
  intro s
  have hgrid : gridCombos [2, 3] [1/2, 3/2] = [(2, 1/2), (2, 3/2), (3, 1/2), (3, 3/2)] := by
    norm_num [gridCombos, List.filter_cons, decide_eq_true_eq]
  refine ⟨hgrid, by rw [hgrid]; rfl, ?_⟩
  rw [optimize_parameters, hgrid]
  have hfirst : ([(2, 1/2), (2, 3/2), (3, 1/2), (3, 3/2)] : List (ℚ × ℚ)).foldl
      (optStep (fun c => some ⟨FloatVal.val (s c)⟩)) ⟨FloatVal.ninf, none, none⟩
      = ([((2 : ℚ), (3/2 : ℚ)), (3, 1/2), (3, 3/2)]).foldl
        (optStep (fun c => some ⟨FloatVal.val (s c)⟩))
        ⟨FloatVal.val (s (2, 1/2)), some (2, 1/2), some ⟨FloatVal.val (s (2, 1/2))⟩⟩ := by
    rw [List.foldl_cons]
    rfl
  rw [hfirst, optFold_val s [((2 : ℚ), (3/2 : ℚ)), (3, 1/2), (3, 3/2)] (s (2, 1/2)) (2, 1/2),
    firstMaxBy_cons s (2, 1/2) [((2 : ℚ), (3/2 : ℚ)), (3, 1/2), (3, 3/2)]]
  rcases h : firstMaxBy s [((2 : ℚ), (3/2 : ℚ)), (3, 1/2), (3, 3/2)] with - | m
  · norm_num [FloatVal.fgt]
  · by_cases hcm : s (2, 1/2) < s m
    · norm_num [FloatVal.fgt, hcm]
    · norm_num [FloatVal.fgt, hcm]

/-- Witness for C3 with the concrete Sharpe assignment s = z_entry: the
maximum 3 is first attained at (3, 1/2). -/
theorem C3_witness :
    optimize_parameters (fun c => some ⟨FloatVal.val c.1⟩) [2, 3] [1/2, 3/2]
      = some ((3, 1/2), ⟨FloatVal.val 3⟩) := by
  have h := (C3_optimizer_grid_and_selection (fun c => c.1)).2.2
  rw [h, (C3_optimizer_grid_and_selection (fun c => c.1)).1]
  norm_num [firstMaxBy]

/-! ### C10: the optimizer never keeps a NaN Sharpe ratio -/

theorem fgt_left_ne_nan (a b : FloatVal) (h : a.fgt b) : a ≠ FloatVal.nan := by
  intro ha
  rw [ha] at h
  cases b <;> exact h

theorem optStep_invariant (eval : ℚ × ℚ → Option BTResult) (st : OptState) (c : ℚ × ℚ)
    (hinv : st.best_sharpe ≠ FloatVal.nan
      ∧ ((st.best_params = none ∧ st.best_result = none ∧ st.best_sharpe = FloatVal.ninf)
         ∨ (∃ p r, st.best_params = some p ∧ st.best_result = some r
              ∧ r.sharpe = st.best_sharpe))) :
    (optStep eval st c).best_sharpe ≠ FloatVal.nan
    ∧ (((optStep eval st c).best_params = none ∧ (optStep eval st c).best_result = none
          ∧ (optStep eval st c).best_sharpe = FloatVal.ninf)
       ∨ (∃ p r, (optStep eval st c).best_params = some p
            ∧ (optStep eval st c).best_result = some r
            ∧ r.sharpe = (optStep eval st c).best_sharpe)) := by
  unfold optStep
  rcases heval : eval c with - | r
  · exact hinv
  · dsimp only
    by_cases hgt : r.sharpe.fgt st.best_sharpe
    · rw [if_pos hgt]
      exact ⟨fgt_left_ne_nan r.sharpe st.best_sharpe hgt, Or.inr ⟨c, r, rfl, rfl, rfl⟩⟩
    · rw [if_neg hgt]
      exact hinv

theorem optFold_invariant (eval : ℚ × ℚ → Option BTResult) :
    ∀ (combos : List (ℚ × ℚ)) (st : OptState),
      (st.best_sharpe ≠ FloatVal.nan
        ∧ ((st.best_params = none ∧ st.best_result = none ∧ st.best_sharpe = FloatVal.ninf)
           ∨ (∃ p r, st.best_params = some p ∧ st.best_result = some r
                ∧ r.sharpe = st.best_sharpe))) →
      ((combos.foldl (optStep eval) st).best_sharpe ≠ FloatVal.nan
        ∧ (((combos.foldl (optStep eval) st).best_params = none
              ∧ (combos.foldl (optStep eval) st).best_result = none
              ∧ (combos.foldl (optStep eval) st).best_sharpe = FloatVal.ninf)
           ∨ (∃ p r, (combos.foldl (optStep eval) st).best_params = some p
                ∧ (combos.foldl (optStep eval) st).best_result = some r
                ∧ r.sharpe = (combos.foldl (optStep eval) st).best_sharpe))) := by
  intro combos
  induction combos with
  | nil => intro st hinv; exact hinv
  | cons c t ih =>
    intro st hinv
    rw [List.foldl_cons]
    exact ih (optStep eval st c) (optStep_invariant eval st c hinv)

theorem optFold_skips_nan (eval : ℚ × ℚ → Option BTResult) :
    ∀ (combos : List (ℚ × ℚ)) (st : OptState),
      (∀ c ∈ combos, eval c = none ∨ ∃ r, eval c = some r ∧ r.sharpe = FloatVal.nan) →
      combos.foldl (optStep eval) st = st := by
  intro combos
  induction combos with
  | nil => intro st hall; rfl
  | cons c t ih =>
    intro st hall
    rw [List.foldl_cons]
    have hstep : optStep eval st c = st := by
      unfold optStep
      rcases hall c (by simp) with hnone | ⟨r, hr, hnan⟩
      · rw [hnone]
      · rw [hr]
        dsimp only
        rw [if_neg (fun hcon => fgt_left_ne_nan _ _ hcon hnan)]
    rw [hstep]
    exact ih st (fun d hd => hall d (by simp [hd]))

/-- C10: the Parameter Optimizer never returns a best result whose Sharpe
ratio is NaN: a candidate replaces the running best only when its Sharpe
compares strictly greater, a comparison that is false for NaN; and when
every evaluated combination yields either no result or a NaN Sharpe
ratio, the optimizer returns the no-result outcome (None). -/
theorem C10_optimizer_never_keeps_nan :
    ∀ (eval : ℚ × ℚ → Option BTResult) (z_entries z_exits : List ℚ),
      (∀ p r, optimize_parameters eval z_entries z_exits = some (p, r)
          → r.sharpe ≠ FloatVal.nan)
      ∧ ((∀ c ∈ gridCombos z_entries z_exits,
            eval c = none ∨ ∃ r, eval c = some r ∧ r.sharpe = FloatVal.nan) →
          optimize_parameters eval z_entries z_exits = none) := by
  intro eval z_entries z_exits
  constructor
  · intro p r hsome
    have hsome2 : (match ((gridCombos z_entries z_exits).foldl (optStep eval)
          ⟨FloatVal.ninf, none, none⟩).best_params,
          ((gridCombos z_entries z_exits).foldl (optStep eval)
            ⟨FloatVal.ninf, none, none⟩).best_result with
        | some p2, some r2 =>
          if ((gridCombos z_entries z_exits).foldl (optStep eval)
              ⟨FloatVal.ninf, none, none⟩).best_sharpe.fgt FloatVal.ninf
            then some (p2, r2) else none
        | _, _ => none) = some (p, r) := hsome
    obtain ⟨hnan, hdisj⟩ := optFold_invariant eval (gridCombos z_entries z_exits)
      ⟨FloatVal.ninf, none, none⟩ (by simp)
    rcases hdisj with ⟨hp, hr, -⟩ | ⟨p2, r2, hp2, hr2, hsh⟩
    · rw [hp, hr] at hsome2
      simp at hsome2
    · rw [hp2, hr2] at hsome2
      dsimp only at hsome2
      by_cases hfgt : ((gridCombos z_entries z_exits).foldl (optStep eval)
          ⟨FloatVal.ninf, none, none⟩).best_sharpe.fgt FloatVal.ninf
      · rw [if_pos hfgt] at hsome2
        injection hsome2 with hpair
        have hr2eq : r2 = r := congrArg Prod.snd hpair
        rw [← hr2eq, hsh]
        exact hnan
      · rw [if_neg hfgt] at hsome2
        exact absurd hsome2 (by simp)
  · intro hall
    unfold optimize_parameters
    rw [optFold_skips_nan eval (gridCombos z_entries z_exits)
      ⟨FloatVal.ninf, none, none⟩ hall]

/-- Witness for C10 at a concrete input: every combination of the grids
[2] and [1/2] reports a NaN Sharpe ratio, and the optimizer reports no
result. -/
theorem C10_witness :
    optimize_parameters (fun _ => some ⟨FloatVal.nan⟩) [2] [1/2] = none :=
  (C10_optimizer_never_keeps_nan (fun _ => some ⟨FloatVal.nan⟩) [2] [1/2]).2
    (fun _ _ => Or.inr ⟨⟨FloatVal.nan⟩, rfl, rfl⟩)

/-! ### Helper lemmas for the fill pipeline of the z-score transformer -/

theorem lastSome_foldl {α : Type} :
    ∀ (l : List (Option α)) (acc : Option α),
      l.foldl (fun a o => match o with | some v => some v | none => a) acc
        = orElseO (lastSome l) acc := by
  intro l
  induction l with
  | nil => intro acc; rfl
  | cons o t ih =>
    intro acc
    rw [List.foldl_cons, ih]
    cases hls : lastSome t with
    | some w =>
      have h2 : lastSome (o :: t) = some w := by
        unfold lastSome
        rw [List.foldl_cons, ih, hls]
        cases o <;> rfl
      rw [h2]
      cases o <;> rfl
    | none =>
      have h2 : lastSome (o :: t) = (match o with | some v => some v | none => none) := by
        unfold lastSome
        rw [List.foldl_cons, ih, hls]
        cases o <;> rfl
      rw [h2]
      cases o <;> rfl

theorem lastSome_cons {α : Type} (o : Option α) (t : List (Option α)) :
    lastSome (o :: t) = orElseO (lastSome t) o := by
  unfold lastSome
  rw [List.foldl_cons, lastSome_foldl]
  cases o <;> rfl

theorem firstSome_cons {α : Type} (o : Option α) (t : List (Option α)) :
    firstSome (o :: t) = orElseO o (firstSome t) := by
  cases o <;> simp [firstSome, List.findSome?_cons, orElseO]

theorem ffillGo_length {α : Type} :
    ∀ (l : List (Option α)) (cur : Option α), (ffillGo cur l).length = l.length := by
  intro l
  induction l with
  | nil => intro cur; rfl
  | cons o t ih => intro cur; cases o <;> simp [ffillGo, ih]

theorem bfill_length {α : Type} :
    ∀ (l : List (Option α)), (bfill l).length = l.length := by
  intro l
  induction l with
  | nil => rfl
  | cons o t ih => simp [bfill, ih]

theorem ffillGo_getD {α : Type} :
    ∀ (l : List (Option α)) (cur : Option α) (i : ℕ), i < l.length →
      (ffillGo cur l).getD i none = orElseO (lastSome (l.take (i + 1))) cur := by
  intro l
  induction l with
  | nil => intro cur i hi; simp at hi
  | cons o t ih =>
    intro cur i hi
    cases i with
    | zero =>
      cases o with
      | none =>
        simp only [ffillGo, List.getD_cons_zero, List.take_succ_cons, List.take_zero]
        rw [lastSome_cons]
        rfl
      | some v =>
        simp only [ffillGo, List.getD_cons_zero, List.take_succ_cons, List.take_zero]
        rw [lastSome_cons]
        rfl
    | succ j =>
      have hj : j < t.length := by simpa using hi
      cases o with
      | none =>
        simp only [ffillGo, List.getD_cons_succ, List.take_succ_cons]
        rw [ih cur j hj, lastSome_cons]
        cases hls : lastSome (t.take (j + 1)) <;> rfl
      | some v =>
        simp only [ffillGo, List.getD_cons_succ, List.take_succ_cons]
        rw [ih (some v) j hj, lastSome_cons]
        cases hls : lastSome (t.take (j + 1)) <;> rfl

theorem bfill_getD {α : Type} :
    ∀ (l : List (Option α)) (i : ℕ), i < l.length →
      (bfill l).getD i none = orElseO (l.getD i none) (firstSome (l.drop (i + 1))) := by
  intro l
  induction l with
  | nil => intro i hi; simp at hi
  | cons o t ih =>
    intro i hi
    cases i with
    | zero =>
      cases o <;> simp [bfill, orElseO]
    | succ j =>
      have hj : j < t.length := by simpa using hi
      simp only [bfill, List.getD_cons_succ, List.drop_succ_cons]
      exact ih j hj

theorem ffillGo_drop {α : Type} :
    ∀ (l : List (Option α)) (cur : Option α) (k : ℕ),
      (ffillGo cur l).drop k = ffillGo (orElseO (lastSome (l.take k)) cur) (l.drop k) := by
  intro l
  induction l with
  | nil => intro cur k; cases k <;> rfl
  | cons o t ih =>
    intro cur k
    cases k with
    | zero => rfl
    | succ j =>
      cases o with
      | none =>
        simp only [ffillGo, List.drop_succ_cons, List.take_succ_cons]
        rw [ih cur j, lastSome_cons]
        cases hls : lastSome (t.take j) <;> rfl
      | some v =>
        simp only [ffillGo, List.drop_succ_cons, List.take_succ_cons]
        rw [ih (some v) j, lastSome_cons]
        cases hls : lastSome (t.take j) <;> rfl

theorem firstSome_ffillGo_none {α : Type} :
    ∀ (l : List (Option α)), firstSome (ffillGo none l) = firstSome l := by
  intro l
  induction l with
  | nil => rfl
  | cons o t ih =>
    cases o with
    | none =>
      simp only [ffillGo]
      rw [firstSome_cons, firstSome_cons, ih]
    | some v =>
      simp only [ffillGo]
      rw [firstSome_cons, firstSome_cons]
      rfl

theorem bfill_ffill_getD {α : Type} (r : List (Option α)) (i : ℕ) (hi : i < r.length) :
    (bfill (ffill r)).getD i none
      = orElseO (lastSome (r.take (i + 1))) (firstSome (r.drop (i + 1))) := by
  have hlen : i < (ffill r).length := by
    unfold ffill
    rw [ffillGo_length]
    exact hi
  rw [bfill_getD (ffill r) i hlen]
  unfold ffill
  rw [ffillGo_getD r none i hi, ffillGo_drop r none (i + 1)]
  cases hls : lastSome (r.take (i + 1)) with
  | some v => rfl
  | none =>
    simp only [orElseO]
    rw [firstSome_ffillGo_none]

theorem getD_map_opt {α β : Type} (f : α → β) :
    ∀ (l : List (Option α)) (i : ℕ),
      (l.map (Option.map f)).getD i none = (l.getD i none).map f := by
  intro l
  induction l with
  | nil => intro i; cases i <;> rfl
  | cons o t ih =>
    intro i
    cases i with
    | zero => cases o <;> rfl
    | succ j => simp only [List.map_cons, List.getD_cons_succ]; exact ih j

theorem firstSome_map {α β : Type} (f : α → β) :
    ∀ (l : List (Option α)),
      firstSome (l.map (Option.map f)) = (firstSome l).map f := by
  intro l
  induction l with
  | nil => rfl
  | cons o t ih =>
    simp only [List.map_cons]
    rw [firstSome_cons, firstSome_cons]
    cases o with
    | none => exact ih
    | some v => rfl

theorem lastSome_map {α β : Type} (f : α → β) :
    ∀ (l : List (Option α)),
      lastSome (l.map (Option.map f)) = (lastSome l).map f := by
  intro l
  induction l with
  | nil => rfl
  | cons o t ih =>
    simp only [List.map_cons]
    rw [lastSome_cons, lastSome_cons, ih]
    cases hls : lastSome t <;> cases o <;> rfl

theorem ffillGo_map {α β : Type} (f : α → β) :
    ∀ (l : List (Option α)) (cur : Option α),
      ffillGo (cur.map f) (l.map (Option.map f)) = (ffillGo cur l).map (Option.map f) := by
  intro l
  induction l with
  | nil => intro cur; rfl
  | cons o t ih =>
    intro cur
    cases o with
    | none =>
      simp only [List.map_cons, Option.map_none, ffillGo]
      rw [ih cur]
      rfl
    | some v =>
      simp only [List.map_cons, Option.map_some, ffillGo]
      rw [← ih (some v)]
      rfl

theorem bfill_map {α β : Type} (f : α → β) :
    ∀ (l : List (Option α)),
      bfill (l.map (Option.map f)) = (bfill l).map (Option.map f) := by
  intro l
  induction l with
  | nil => rfl
  | cons o t ih =>
    simp only [List.map_cons, bfill]
    rw [ih]
    cases o with
    | none =>
      simp only [Option.map_none]
      rw [firstSome_map]
      rfl
    | some v => rfl

theorem sampleVar_nonneg (l : List ℚ) (hl : 2 ≤ l.length) : 0 ≤ sampleVar l := by
  unfold sampleVar
  apply div_nonneg
  · unfold centeredSqSum
    apply List.sum_nonneg
    intro x hx
    obtain ⟨y, -, rfl⟩ := List.mem_map.mp hx
    positivity
  · have : (2 : ℚ) ≤ (l.length : ℚ) := by exact_mod_cast hl
    linarith

theorem rolling_var_nonneg (s : List ℚ) (w : ℕ) :
    ∀ o ∈ rolling_var s w, ∀ v, o = some v → 0 ≤ v := by
  intro o ho v hv
  obtain ⟨i, -, rfl⟩ := List.mem_map.mp ho
  by_cases hlen : (windowAt s w i).length < 2
  · rw [if_pos hlen] at hv
    exact absurd hv (by simp)
  · rw [if_neg hlen] at hv
    injection hv with hv2
    rw [← hv2]
    exact sampleVar_nonneg _ (by omega)

theorem sqrtQ_eq_zero_iff (v : ℚ) (hv : 0 ≤ v) : sqrtQ v = 0 ↔ v = 0 := by
  unfold sqrtQ
  rw [Real.sqrt_eq_zero (by exact_mod_cast hv)]
  exact_mod_cast Iff.rfl

theorem replaceZero_map_sqrtQ :
    ∀ (l : List (Option ℚ)), (∀ o ∈ l, ∀ v, o = some v → 0 ≤ v) →
      replaceZero (l.map (Option.map sqrtQ)) = (replaceZero l).map (Option.map sqrtQ) := by
  intro l
  induction l with
  | nil => intro hpos; rfl
  | cons o t ih =>
    intro hpos
    simp only [List.map_cons, replaceZero, List.map_map]
    have htail := ih (fun o2 ho2 v hv => hpos o2 (by simp [ho2]) v hv)
    simp only [replaceZero, List.map_map] at htail
    rw [htail]
    congr 1
    cases o with
    | none => rfl
    | some v =>
      have hv : 0 ≤ v := hpos (some v) (by simp) v rfl
      by_cases h0 : v = 0
      · have hs : sqrtQ v = 0 := (sqrtQ_eq_zero_iff v hv).mpr h0
        have hs0 : sqrtQ 0 = 0 := by simp [sqrtQ]
        simp [h0, hs, hs0]
      · have hs : ¬ sqrtQ v = 0 := fun hcon => h0 ((sqrtQ_eq_zero_iff v hv).mp hcon)
        simp [h0, hs]

theorem rolling_var_length (s : List ℚ) (w : ℕ) : (rolling_var s w).length = s.length := by
  simp [rolling_var]

theorem filled_std_eq_map (s : List ℚ) (w : ℕ) :
    filled_std s w = (bfill (ffill (replaceZero (rolling_var s w)))).map (Option.map sqrtQ) := by
  unfold filled_std rolling_std
  rw [replaceZero_map_sqrtQ (rolling_var s w) (rolling_var_nonneg s w)]
  unfold ffill
  have hgo := ffillGo_map (α := ℚ) (β := ℝ) sqrtQ (replaceZero (rolling_var s w)) none
  rw [show Option.map sqrtQ (none : Option ℚ) = (none : Option ℝ) from rfl] at hgo
  rw [hgo, bfill_map]

theorem replaceZero_degenerate {α : Type} [Zero α] [DecidableEq α] :
    ∀ (l : List (Option α)), (∀ o ∈ l, o = none ∨ o = some 0) →
      replaceZero l = List.replicate l.length none := by
  intro l
  induction l with
  | nil => intro hdeg; rfl
  | cons o t ih =>
    intro hdeg
    simp only [replaceZero, List.map_cons, List.length_cons, List.replicate_succ]
    have htail := ih (fun o2 ho2 => hdeg o2 (by simp [ho2]))
    simp only [replaceZero] at htail
    rw [htail]
    rcases hdeg o (by simp) with rfl | rfl
    · rfl
    · simp

theorem ffill_replicate_none {α : Type} :
    ∀ (k : ℕ), ffill (List.replicate k (none : Option α)) = List.replicate k none := by
  intro k
  induction k with
  | zero => rfl
  | succ j ih =>
    simp only [List.replicate_succ, ffill, ffillGo]
    unfold ffill at ih
    rw [ih]

theorem firstSome_replicate_none {α : Type} :
    ∀ (k : ℕ), firstSome (List.replicate k (none : Option α)) = none := by
  intro k
  induction k with
  | zero => rfl
  | succ j ih =>
    simp only [List.replicate_succ]
    rw [firstSome_cons, ih]
    rfl

theorem bfill_replicate_none {α : Type} :
    ∀ (k : ℕ), bfill (List.replicate k (none : Option α)) = List.replicate k none := by
  intro k
  induction k with
  | zero => rfl
  | succ j ih =>
    simp only [List.replicate_succ, bfill]
    rw [ih, firstSome_replicate_none]

theorem getD_replicate_none {α : Type} (k i : ℕ) :
    (List.replicate k (none : Option α)).getD i none = none := by
  by_cases h : i < k
  · rw [List.getD_eq_getElem _ _ (by simpa using h)]
    simp
  · rw [List.getD_eq_default _ _ (by simpa using h)]

theorem filled_std_degenerate (s : List ℚ) (w : ℕ)
    (hdeg : ∀ o ∈ rolling_var s w, o = none ∨ o = some 0) :
    filled_std s w = List.replicate s.length none := by
  rw [filled_std_eq_map]
  rw [replaceZero_degenerate (rolling_var s w) hdeg, rolling_var_length]
  rw [ffill_replicate_none, bfill_replicate_none]
  simp

theorem calculate_zscore_degenerate_none (s : List ℚ) (w : ℕ)
    (hdeg : ∀ o ∈ rolling_var s w, o = none ∨ o = some 0) :
    ∀ o ∈ calculate_zscore s w, o = none := by
  intro o ho
  unfold calculate_zscore at ho
  obtain ⟨i, -, rfl⟩ := List.mem_map.mp ho
  rw [filled_std_degenerate s w hdeg, getD_replicate_none]
  rfl

theorem calculate_zscore_length (s : List ℚ) (w : ℕ) :
    (calculate_zscore s w).length = s.length := by
  simp [calculate_zscore]

/-- C7 (amended): in the Z-Score Transformer, a position whose rolling
standard deviation is exactly zero receives the most recent preceding
non-zero defined estimate (forward fill), and only positions with no
preceding non-zero estimate receive the next following non-zero estimate
(backward fill) — not the nearest estimate searched forward in time
first; and when no non-zero defined estimate exists anywhere, the
z-score stays undefined everywhere and the Signal State Machine, run on
it, never leaves the flat state (all-zero positions) rather than
crashing. -/
theorem C7_amended_substitution_policy :
    (∀ (s : List ℚ) (w i : ℕ), i < s.length →
        (rolling_var s w).getD i none = some 0 →
        (filled_std s w).getD i none
          = (orElseO (lastSome ((replaceZero (rolling_var s w)).take (i + 1)))
              (firstSome ((replaceZero (rolling_var s w)).drop (i + 1)))).map sqrtQ)
    ∧ (∀ (s : List ℚ) (w : ℕ) (P : SignalParams ℝ),
        (∀ o ∈ rolling_var s w, o = none ∨ o = some 0) →
        signalPositions P (calculate_zscore s w) = List.replicate s.length 0) := by
  constructor
  · intro s w i hi hzero
    rw [filled_std_eq_map, getD_map_opt]
    congr 1
    apply bfill_ffill_getD
    simp only [replaceZero, List.length_map, rolling_var_length]
    exact hi
  · intro s w P hdeg
    have hnone := calculate_zscore_degenerate_none s w hdeg
    have hflat := signalPositions_flat P (calculate_zscore s w)
      (fun o ho q hq => absurd ((hnone o ho) ▸ hq) (by simp))
    rw [hflat, calculate_zscore_length]

theorem subst_forward_backward_map_sqrtQ (l : List (Option ℚ))
    (hpos : ∀ o ∈ l, ∀ v, o = some v → 0 ≤ v) (i : ℕ) :
    subst_forward_backward (l.map (Option.map sqrtQ)) i
      = (subst_forward_backward l i).map sqrtQ := by
  unfold subst_forward_backward
  rw [replaceZero_map_sqrtQ l hpos, ← List.map_drop, ← List.map_take,
    firstSome_map, lastSome_map]
  cases hfs : firstSome ((replaceZero l).drop (i + 1)) with
  | some w => rfl
  | none => rfl

theorem rolling_var_scenario :
    rolling_var ((0 : ℚ) :: (List.replicate 26 1 ++ [50])) 24
      = [none, some (1/2), some (1/3), some (1/4), some (1/5), some (1/6), some (1/7), some (1/8), some (1/9), some (1/10), some (1/11), some (1/12), some (1/13), some (1/14), some (1/15), some (1/16), some (1/17), some (1/18), some (1/19), some (1/20), some (1/21), some (1/22), some (1/23), some (1/24), some 0, some 0, some 0, some (2401/24)] := by
  norm_num [rolling_var, windowAt, sampleVar, centeredSqSum, listMean,
    List.replicate, List.range_succ]

theorem fill_scenario :
    bfill (ffill (replaceZero ([none, some (1/2), some (1/3), some (1/4), some (1/5), some (1/6), some (1/7), some (1/8), some (1/9), some (1/10), some (1/11), some (1/12), some (1/13), some (1/14), some (1/15), some (1/16), some (1/17), some (1/18), some (1/19), some (1/20), some (1/21), some (1/22), some (1/23), some (1/24), some 0, some 0, some 0, some (2401/24)] : List (Option ℚ))))
      = [some (1/2), some (1/2), some (1/3), some (1/4), some (1/5), some (1/6), some (1/7), some (1/8), some (1/9), some (1/10), some (1/11), some (1/12), some (1/13), some (1/14), some (1/15), some (1/16), some (1/17), some (1/18), some (1/19), some (1/20), some (1/21), some (1/22), some (1/23), some (1/24), some (1/24), some (1/24), some (1/24), some (2401/24)] := by
  have hrz : replaceZero ([none, some (1/2), some (1/3), some (1/4), some (1/5), some (1/6), some (1/7), some (1/8), some (1/9), some (1/10), some (1/11), some (1/12), some (1/13), some (1/14), some (1/15), some (1/16), some (1/17), some (1/18), some (1/19), some (1/20), some (1/21), some (1/22), some (1/23), some (1/24), some 0, some 0, some 0, some (2401/24)] : List (Option ℚ))
      = [none, some (1/2), some (1/3), some (1/4), some (1/5), some (1/6), some (1/7), some (1/8), some (1/9), some (1/10), some (1/11), some (1/12), some (1/13), some (1/14), some (1/15), some (1/16), some (1/17), some (1/18), some (1/19), some (1/20), some (1/21), some (1/22), some (1/23), some (1/24), none, none, none, some (2401/24)] := by
    norm_num [replaceZero]
  have hff : ffill ([none, some (1/2), some (1/3), some (1/4), some (1/5), some (1/6), some (1/7), some (1/8), some (1/9), some (1/10), some (1/11), some (1/12), some (1/13), some (1/14), some (1/15), some (1/16), some (1/17), some (1/18), some (1/19), some (1/20), some (1/21), some (1/22), some (1/23), some (1/24), none, none, none, some (2401/24)] : List (Option ℚ))
      = [none, some (1/2), some (1/3), some (1/4), some (1/5), some (1/6), some (1/7), some (1/8), some (1/9), some (1/10), some (1/11), some (1/12), some (1/13), some (1/14), some (1/15), some (1/16), some (1/17), some (1/18), some (1/19), some (1/20), some (1/21), some (1/22), some (1/23), some (1/24), some (1/24), some (1/24), some (1/24), some (2401/24)] := by
    norm_num [ffill, ffillGo]
  have hbf : bfill ([none, some (1/2), some (1/3), some (1/4), some (1/5), some (1/6), some (1/7), some (1/8), some (1/9), some (1/10), some (1/11), some (1/12), some (1/13), some (1/14), some (1/15), some (1/16), some (1/17), some (1/18), some (1/19), some (1/20), some (1/21), some (1/22), some (1/23), some (1/24), some (1/24), some (1/24), some (1/24), some (2401/24)] : List (Option ℚ))
      = [some (1/2), some (1/2), some (1/3), some (1/4), some (1/5), some (1/6), some (1/7), some (1/8), some (1/9), some (1/10), some (1/11), some (1/12), some (1/13), some (1/14), some (1/15), some (1/16), some (1/17), some (1/18), some (1/19), some (1/20), some (1/21), some (1/22), some (1/23), some (1/24), some (1/24), some (1/24), some (1/24), some (2401/24)] := by
    norm_num [bfill, firstSome, List.findSome?_cons]
  rw [hrz, hff, hbf]

/-- Counterexample for C7 as stated: on the spread
0 :: (26 ones) :: 50 with window 24, the rolling standard deviation is
exactly zero at index 26, whose nearest non-zero estimate searching
forward then backward in time is sqrt(2401/24) at index 27 (distance 1);
the code instead substitutes the preceding estimate sqrt(1/24) from
index 23 (distance 3), and the two differ. -/
theorem C7_counterexample_not_nearest_forward :
    (rolling_var ((0 : ℚ) :: (List.replicate 26 1 ++ [50])) 24).getD 26 none = some 0
    ∧ (filled_std ((0 : ℚ) :: (List.replicate 26 1 ++ [50])) 24).getD 26 none
        = some (sqrtQ (1/24))
    ∧ subst_forward_backward (rolling_std ((0 : ℚ) :: (List.replicate 26 1 ++ [50])) 24) 26
        = some (sqrtQ (2401/24))
    ∧ sqrtQ (1/24) ≠ sqrtQ (2401/24) := by
  have hv := rolling_var_scenario
  refine ⟨by rw [hv]; rfl, ?_, ?_, ?_⟩
  · rw [filled_std_eq_map, getD_map_opt, hv, fill_scenario]
    rfl
  · have hstd : rolling_std ((0 : ℚ) :: (List.replicate 26 1 ++ [50])) 24
        = (rolling_var ((0 : ℚ) :: (List.replicate 26 1 ++ [50])) 24).map
            (Option.map sqrtQ) := rfl
    rw [hstd, subst_forward_backward_map_sqrtQ _ (rolling_var_nonneg _ _) 26, hv]
    have hq : subst_forward_backward ([none, some (1/2), some (1/3), some (1/4), some (1/5), some (1/6), some (1/7), some (1/8), some (1/9), some (1/10), some (1/11), some (1/12), some (1/13), some (1/14), some (1/15), some (1/16), some (1/17), some (1/18), some (1/19), some (1/20), some (1/21), some (1/22), some (1/23), some (1/24), some 0, some 0, some 0, some (2401/24)] : List (Option ℚ)) 26
        = some (2401/24) := by
      norm_num [subst_forward_backward, replaceZero, firstSome, List.findSome?_cons]
    rw [hq]
    rfl
  · have hlt : sqrtQ (1/24) < sqrtQ (2401/24) := by
      unfold sqrtQ
      apply Real.sqrt_lt_sqrt (by positivity)
      exact_mod_cast (by norm_num : (1/24 : ℚ) < 2401/24)
    exact ne_of_lt hlt

/-- Witness for the amended C7: the substitution characterization at the
zero-variance index 26 of the scenario spread, and the all-flat machine
on the degenerate constant spread [7, 7]. -/
theorem C7_amended_witness :
    (filled_std ((0 : ℚ) :: (List.replicate 26 1 ++ [50])) 24).getD 26 none
      = (orElseO
          (lastSome ((replaceZero
            (rolling_var ((0 : ℚ) :: (List.replicate 26 1 ++ [50])) 24)).take (26 + 1)))
          (firstSome ((replaceZero
            (rolling_var ((0 : ℚ) :: (List.replicate 26 1 ++ [50])) 24)).drop (26 + 1)))).map
        sqrtQ
    ∧ signalPositions (⟨2, 1/2, 3⟩ : SignalParams ℝ) (calculate_zscore [7, 7] 24)
        = List.replicate ([7, 7] : List ℚ).length 0 := by
  constructor
  · exact (C7_amended_substitution_policy).1 ((0 : ℚ) :: (List.replicate 26 1 ++ [50])) 24 26
      (by norm_num) (by rw [rolling_var_scenario]; rfl)
  · refine (C7_amended_substitution_policy).2 [7, 7] 24 ⟨2, 1/2, 3⟩ ?_
    have hv2 : rolling_var [7, 7] 24 = [none, some 0] := by
      norm_num [rolling_var, windowAt, sampleVar, centeredSqSum, listMean, List.range_succ]
    rw [hv2]
    intro o ho
    simp only [List.mem_cons, List.not_mem_nil, or_false] at ho
    rcases ho with rfl | rfl
    · exact Or.inl rfl
    · exact Or.inr rfl

